import Mathlib

/-!
Shallow embedding of the template parser from src/src/parser.rs.

The parser consumes a finite list of positioned tokens (produced by an
external lexer, out of scope of the repository sources) and builds an AST.
Mutable parser state (the cursor index into the token list) is threaded
explicitly; Rust panics become explicit error results; the loops and the
recursion of the expression engine, whose termination is not structural,
are driven by an explicit fuel parameter so that divergence is observable
as a distinct outcome.
-/

namespace Tera

/-- Modelled from the spec: the closed set of token kinds produced by the
out-of-scope lexer (spec section 3), as consumed by src/src/parser.rs. -/
inductive TokenType where
  | Text
  | VariableStart
  | VariableEnd
  | TagStart
  | TagEnd
  | Identifier
  | Int
  | Float
  | Bool
  | Add
  | Substract
  | Multiply
  | Divide
  | Space
  | EOF
deriving DecidableEq, Repr

/-- Modelled from the spec: a lexer token carries a kind, a string value and
a byte-offset position (spec section 3); immutable once produced. -/
structure Token where
  kind : TokenType
  value : String
  position : Nat
deriving DecidableEq, Repr

/-- Modelled from the spec: each kind with arithmetic meaning carries a fixed
precedence level, Multiply and Divide strictly higher than Add and Substract,
all other kinds lowest (spec section 3: "all others undefined/irrelevant",
and the terminator counts as not-higher in section 4.4). -/
def TokenType.precedence : TokenType → Nat
  | .Multiply => 20
  | .Divide => 20
  | .Add => 10
  | .Substract => 10
  | _ => 0

/-- Precedence of a token, determined by its kind (used at parser.rs line 151). -/
def Token.precedence (t : Token) : Nat :=
  t.kind.precedence

mutual

/-- An AST node: a byte position plus the tagged payload, mirroring
`Node { position, specific }` of the out-of-scope nodes module as used by
src/src/parser.rs. -/
inductive Node where
  | mk (position : Nat) (specific : SpecificNode)

/-- Modelled from the spec: the tagged node payload (spec section 3).
The Float payload keeps the literal's text because floating-point values
are outside the shallow embedding; no claim depends on the numeric value. -/
inductive SpecificNode where
  | Text (s : String)
  | Identifier (s : String)
  | Int (v : Int)
  | Float (raw : String)
  | Bool (v : Bool)
  | Math (lhs : Node) (rhs : Node) (operator : String)
  | VariableBlock (contained : Node)
  | List (children : List Node)

end

/-- The byte position of a node. -/
def Node.position : Node → Nat
  | .mk p _ => p

/-- The payload of a node. -/
def Node.specific : Node → SpecificNode
  | .mk _ s => s

/-- Modelled from the spec: `push` on the node container appends a child at
the end of a List node's ordered children (spec section 3: "append");
it is only ever invoked on List nodes by the parser. -/
def Node.push : Node → Node → Node
  | .mk p (.List cs), c => .mk p (.List (cs ++ [c]))
  | n, _ => n

/-- Modelled from the spec: `pop` removes and returns the last child of a
List node (spec section 3: "pop-last"); `none` on an empty or non-List node
(the parser always guards pop behind an emptiness check). The result pairs
the popped child with the shrunken container. -/
def Node.pop : Node → Option (Node × Node)
  | .mk p (.List cs) =>
      match cs.getLast? with
      | some c => some (c, .mk p (.List cs.dropLast))
      | none => none
  | _ => none

/-- Modelled from the spec: emptiness check of the node container
(spec section 3: "emptiness check"). -/
def Node.is_empty : Node → Bool
  | .mk _ (.List cs) => cs.isEmpty
  | _ => true

/-- Modelled from the spec: child count of the node container
(spec section 3: "length query"). -/
def Node.len : Node → Nat
  | .mk _ (.List cs) => cs.length
  | _ => 0

/-- Outcome of a parsing operation: a value together with the new cursor
index, a fatal error (a Rust panic), or fuel exhaustion (observable
divergence of the source's unbounded loops). -/
inductive PRes (α : Type) where
  | ok (a : α) (pos : Nat)
  | err (msg : String)
  | timeout
deriving Repr, DecidableEq

/-- `peek` (parser.rs lines 39-41): look at the current token without
consuming it; the `.unwrap()` panic on an out-of-range index becomes an
error result. -/
def peek (ts : List Token) (i : Nat) : PRes Token :=
  match ts.get? i with
  | some t => .ok t i
  | none => .err "peek: no token"

/-- `next_token` (parser.rs lines 59-64): return the current token and
advance the cursor by one. -/
def next_token (ts : List Token) (i : Nat) : PRes Token :=
  match ts.get? i with
  | some t => .ok t (i + 1)
  | none => .err "peek: no token"

/-- `peek_non_space` (parser.rs lines 44-56): advance over Space tokens
until a non-space token is found, then rewind exactly one position, so the
cursor ends at the found token's own index. -/
def peek_non_space (ts : List Token) (i : Nat) : PRes Token :=
  match h : ts.get? i with
  | none => .err "peek: no token"
  | some t =>
      if t.kind = .Space then peek_non_space ts (i + 1) else .ok t i
termination_by ts.length - i
decreasing_by
  have hi : i < ts.length := List.get?_eq_some.mp h |>.1
  omega

/-- `next_non_space` (parser.rs lines 67-77): consume tokens until a
non-space token is found and consumed; the cursor ends one past it. -/
def next_non_space (ts : List Token) (i : Nat) : PRes Token :=
  match h : ts.get? i with
  | none => .err "peek: no token"
  | some t =>
      if t.kind = .Space then next_non_space ts (i + 1) else .ok t (i + 1)
termination_by ts.length - i
decreasing_by
  have hi : i < ts.length := List.get?_eq_some.mp h |>.1
  omega

/-- `expect` (parser.rs lines 80-87): peek past whitespace, fail if the kind
mismatches, otherwise consume the token. The peek itself moves the cursor to
the found token's index, from which the consuming read proceeds. -/
def expect (ts : List Token) (i : Nat) (kind : TokenType) : PRes Token :=
  match peek_non_space ts i with
  | .ok token i0 =>
      if token.kind ≠ kind then .err "Unexpected token"
      else next_non_space ts i0
  | .err e => .err e
  | .timeout => .timeout

/-- Rust's `str::parse::<i32>` as used at parser.rs line 223: an optional
sign followed by at least one decimal digit, rejected on any other character
or on overflow of the signed 32-bit range. -/
def parseI32 (s : String) : Option Int :=
  match s.data with
  | [] => none
  | c :: rest =>
      let digits := if c = '-' ∨ c = '+' then rest else c :: rest
      let sign : Int := if c = '-' then -1 else 1
      if digits = [] then none
      else if digits.all Char.isDigit then
        let mag : Nat := digits.foldl (fun acc d => acc * 10 + (d.toNat - 48)) 0
        let v : Int := sign * mag
        if -2147483648 ≤ v ∧ v ≤ 2147483647 then some v else none
      else none

/-- Rust's `str::parse::<f32>` success condition as used at parser.rs
line 227, modelled syntactically for the numerals the lexer emits: an
optional sign, at least one decimal digit, and at most one decimal point.
The floating-point value itself is outside the shallow embedding; the
Float node keeps the literal text. -/
def validF32 (s : String) : Bool :=
  match s.data with
  | [] => false
  | c :: rest =>
      let digits := if c = '-' ∨ c = '+' then rest else c :: rest
      digits.any Char.isDigit
        && digits.all (fun d => d.isDigit || d = '.')
        && digits.countP (fun d => d = '.') ≤ 1

/-- `parse_identifier` (parser.rs lines 212-215): consume the next non-space
token and wrap its text as an Identifier leaf at the token's position. -/
def parse_identifier (ts : List Token) (i : Nat) : PRes Node :=
  match next_non_space ts i with
  | .ok ident j => .ok (Node.mk ident.position (.Identifier ident.value)) j
  | .err e => .err e
  | .timeout => .timeout

/-- `parse_literal` (parser.rs lines 218-236): consume the next non-space
token and produce an Int, Float or Bool leaf; a Bool is false exactly when
the token text equals the word false, true for any other text; malformed
numerals abort (the source's `.unwrap()` panics). -/
def parse_literal (ts : List Token) (i : Nat) : PRes Node :=
  match next_non_space ts i with
  | .ok literal j =>
      match literal.kind with
      | .Int =>
          match parseI32 literal.value with
          | some value => .ok (Node.mk literal.position (.Int value)) j
          | none => .err "int parse failed"
      | .Float =>
          if validF32 literal.value then
            .ok (Node.mk literal.position (.Float literal.value)) j
          else .err "float parse failed"
      | .Bool =>
          let value := if literal.value = "false" then false else true
          .ok (Node.mk literal.position (.Bool value)) j
      | _ => .err "unexpected type when parsing literal"
  | .err e => .err e
  | .timeout => .timeout

/-- `parse_single_expression` (parser.rs lines 192-209): peek the next
non-space token (moving the cursor to it); fail on the terminator or on a
leading additive operator; dispatch identifiers and literals. -/
def parse_single_expression (ts : List Token) (i : Nat) (terminator : TokenType) :
    PRes Node :=
  match peek_non_space ts i with
  | .ok token i0 =>
      if token.kind = terminator then .err "Unexpected terminator"
      else
        match token.kind with
        | .Identifier => parse_identifier ts i0
        | .Float => parse_literal ts i0
        | .Int => parse_literal ts i0
        | .Bool => parse_literal ts i0
        | .Add => .err "wololo"
        | .Substract => .err "wololo"
        | _ => .err "unexpected"
  | .err e => .err e
  | .timeout => .timeout

mutual

/-- `parse_whole_expression` (parser.rs lines 122-188, entry part lines
123-127): peek the next non-space token (moving the cursor to it), seed the
working stack if none was supplied (a fresh List node at that token's
position), parse one single operand, push it, and enter the reduction loop.
Fuel drives the source's unbounded recursion. -/
def parse_whole_expression (fuel : Nat) (ts : List Token) (i : Nat)
    (stack : Option Node) (terminator : TokenType) : PRes Node :=
  match fuel with
  | 0 => .timeout
  | fuel + 1 =>
      match peek_non_space ts i with
      | .ok token i0 =>
          let node_stack := stack.getD (Node.mk token.position (.List []))
          match parse_single_expression ts i0 terminator with
          | .ok next i1 => parse_whole_loop fuel ts i1 (node_stack.push next) terminator
          | .err e => .err e
          | .timeout => .timeout
      | .err e => .err e
      | .timeout => .timeout

/-- The reduction loop of `parse_whole_expression` (parser.rs lines
129-187): peek the next non-space token; on the terminator pop and return
the reduced expression; on an additive operator consume it and recursively
parse the whole right-hand side with a clone of the current stack, then
either defer (next token binds tighter) or combine with the popped left
operand; on a multiplicative operator consume it, parse a single operand
and combine immediately; anything else is fatal. -/
def parse_whole_loop (fuel : Nat) (ts : List Token) (i : Nat)
    (node_stack : Node) (terminator : TokenType) : PRes Node :=
  match fuel with
  | 0 => .timeout
  | fuel + 1 =>
      match peek_non_space ts i with
      | .ok token i0 =>
          if token.kind = terminator then
            if node_stack.is_empty then .err "Unexpected terminator"
            else
              match node_stack.pop with
              | some (top, _) => .ok top i0
              | none => .err "pop on empty stack"
          else
            match token.kind with
            | .Add | .Substract =>
                match next_non_space ts i0 with
                | .ok _ i1 =>
                    if node_stack.is_empty then
                      parse_whole_loop fuel ts i1 node_stack terminator
                    else
                      match parse_whole_expression fuel ts i1 (some node_stack) terminator with
                      | .ok rhs i2 =>
                          match peek_non_space ts i2 with
                          | .ok next_tok i3 =>
                              if next_tok.precedence > token.precedence then
                                parse_whole_expression fuel ts i3
                                  (some (node_stack.push rhs)) terminator
                              else
                                match node_stack.pop with
                                | some (lhs, rest) =>
                                    let operator :=
                                      if token.kind = .Add then "+" else "-"
                                    parse_whole_loop fuel ts i3
                                      (rest.push (Node.mk lhs.position
                                        (.Math lhs rhs operator))) terminator
                                | none => .err "pop on empty stack"
                          | .err e => .err e
                          | .timeout => .timeout
                      | .err e => .err e
                      | .timeout => .timeout
                | .err e => .err e
                | .timeout => .timeout
            | .Divide | .Multiply =>
                match next_non_space ts i0 with
                | .ok _ i1 =>
                    if node_stack.is_empty then
                      .err "Unexpected division or multiplication"
                    else
                      match parse_single_expression ts i1 terminator with
                      | .ok rhs i2 =>
                          match node_stack.pop with
                          | some (lhs, rest) =>
                              let operator :=
                                if token.kind = .Multiply then "*" else "/"
                              parse_whole_loop fuel ts i2
                                (rest.push (Node.mk lhs.position
                                  (.Math lhs rhs operator))) terminator
                          | none => .err "pop on empty stack"
                      | .err e => .err e
                      | .timeout => .timeout
                | .err e => .err e
                | .timeout => .timeout
            | _ => .err "Unexpected token"
      | .err e => .err e
      | .timeout => .timeout

end

/-- `parse_text` (parser.rs lines 105-108): consume the current token
verbatim as a Text leaf. -/
def parse_text (ts : List Token) (i : Nat) : PRes Node :=
  match next_token ts i with
  | .ok token j => .ok (Node.mk token.position (.Text token.value)) j
  | .err e => .err e
  | .timeout => .timeout

/-- `parse_variable_block` (parser.rs lines 111-118): expect VariableStart,
parse one whole expression terminated by VariableEnd, wrap it in a
VariableBlock node at the VariableStart token's position, then expect and
consume VariableEnd. -/
def parse_variable_block (fuel : Nat) (ts : List Token) (i : Nat) : PRes Node :=
  match expect ts i .VariableStart with
  | .ok token i1 =>
      match parse_whole_expression fuel ts i1 none .VariableEnd with
      | .ok contained i2 =>
          let node := Node.mk token.position (.VariableBlock contained)
          match expect ts i2 .VariableEnd with
          | .ok _ i3 => .ok node i3
          | .err e => .err e
          | .timeout => .timeout
      | .err e => .err e
      | .timeout => .timeout
  | .err e => .err e
  | .timeout => .timeout

/-- `parse_next` (parser.rs lines 91-102): dispatch on the current token
kind without whitespace skipping; TagStart is a no-op that does not advance
the cursor, so the loop spins (fuel exhaustion observes the divergence);
VariableStart and Text produce a node; anything else ends the top level. -/
def parse_next (fuel : Nat) (ts : List Token) (i : Nat) : PRes (Option Node) :=
  match fuel with
  | 0 => .timeout
  | fuel + 1 =>
      match peek ts i with
      | .ok t _ =>
          match t.kind with
          | .TagStart => parse_next fuel ts i
          | .VariableStart =>
              match parse_variable_block fuel ts i with
              | .ok n j => .ok (some n) j
              | .err e => .err e
              | .timeout => .timeout
          | .Text =>
              match parse_text ts i with
              | .ok n j => .ok (some n) j
              | .err e => .err e
              | .timeout => .timeout
          | _ => .ok none i
      | .err e => .err e
      | .timeout => .timeout

/-- `parse` (parser.rs lines 32-36): the top-level loop, appending each
produced node to the root until `parse_next` yields nothing. -/
def parse (fuel : Nat) (ts : List Token) (i : Nat) (root : Node) : PRes Node :=
  match fuel with
  | 0 => .timeout
  | fuel + 1 =>
      match parse_next fuel ts i with
      | .ok (some node) j => parse fuel ts j (root.push node)
      | .ok none j => .ok root j
      | .err e => .err e
      | .timeout => .timeout

/-- `Parser::new` followed by `parse` (parser.rs lines 15-29): run the whole
parse from cursor zero with a fresh List root at position zero, returning
the final root. -/
def runParse (fuel : Nat) (ts : List Token) : PRes Node :=
  parse fuel ts 0 (Node.mk 0 (.List []))

/-! ### Modelled token streams

The lexer is out of scope of the repository sources, so concrete streams
are modelled from the spec (sections 3 and 6): one token per lexeme
carrying its byte offset, whitespace as Space tokens, and a trailing
end-of-stream sentinel. The byte offsets agree with the expectations of
the repository's own tests (parser.rs lines 288-378). -/

/-- Modelled from the spec: a VariableStart token at a byte offset. -/
def vsTok (p : Nat) : Token := ⟨.VariableStart, "\x7b\x7b", p⟩

/-- Modelled from the spec: a VariableEnd token at a byte offset. -/
def veTok (p : Nat) : Token := ⟨.VariableEnd, "\x7d\x7d", p⟩

/-- Modelled from the spec: a single-space Space token at a byte offset. -/
def spTok (p : Nat) : Token := ⟨.Space, " ", p⟩

/-- Modelled from the spec: the end-of-stream sentinel token. -/
def eofTok (p : Nat) : Token := ⟨.EOF, "", p⟩

/-- Modelled from the spec: an Int token with its digits and byte offset. -/
def intTok (v : String) (p : Nat) : Token := ⟨.Int, v, p⟩

/-- Modelled from the spec: an Identifier token with its text and offset. -/
def identTok (v : String) (p : Nat) : Token := ⟨.Identifier, v, p⟩

/-- Modelled from the spec: an Add operator token at a byte offset. -/
def addTok (p : Nat) : Token := ⟨.Add, "+", p⟩

/-- Modelled from the spec: a Substract operator token at a byte offset. -/
def subTok (p : Nat) : Token := ⟨.Substract, "-", p⟩

/-- Modelled from the spec: a Multiply operator token at a byte offset. -/
def mulTok (p : Nat) : Token := ⟨.Multiply, "*", p⟩

/-- Modelled from the spec: a Divide operator token at a byte offset. -/
def divTok (p : Nat) : Token := ⟨.Divide, "/", p⟩

/-- Modelled from the spec: the lexer's token stream for the template text
consisting of one variable block around `1 / 2 + 3 * 2 + 42`, the input of
the repository's complex-precedence test (parser.rs line 355). -/
def complexToks : List Token :=
  [vsTok 0, spTok 2, intTok "1" 3, spTok 4, divTok 5, spTok 6, intTok "2" 7,
   spTok 8, addTok 9, spTok 10, intTok "3" 11, spTok 12, mulTok 13, spTok 14,
   intTok "2" 15, spTok 16, addTok 17, spTok 18, intTok "42" 19, spTok 21,
   veTok 22, eofTok 24]

/-- Modelled from the spec: the lexer's token stream for a variable block
around `1<op>42` with no spaces, as in the basic-math test
(parser.rs line 291): operand offsets 2 and 4, operator offset 3. -/
def basicToks (op : Token) : List Token :=
  [vsTok 0, intTok "1" 2, op, intTok "42" 4, veTok 6, eofTok 8]

/-- The expected parse of the spaceless variable block around `1<op>42`:
one VariableBlock child holding Math with lhs `Int 1` at offset 2, rhs
`Int 42` at offset 4, the Math node positioned at the left operand's
offset 2. -/
def basicExpected (operator : String) : PRes Node :=
  .ok (Node.mk 0 (.List [Node.mk 0 (.VariableBlock
    (Node.mk 2 (.Math (Node.mk 2 (.Int 1)) (Node.mk 4 (.Int 42)) operator)))])) 5

/-- Modelled from the spec: the lexer's token stream for a spaceless
variable block around `1+2+3`. -/
def chain123Toks : List Token :=
  [vsTok 0, intTok "1" 2, addTok 3, intTok "2" 4, addTok 5, intTok "3" 6,
   veTok 7, eofTok 9]

/-! ### Operator/operand chains of a single precedence tier -/

/-- The token stream of an operand followed by alternating operator and
operand tokens: the chain `first op1 b1 op2 b2 ...`. -/
def chainToks (first : Token) : List (Token × Token) → List Token
  | [] => [first]
  | (op, b) :: rest => first :: op :: chainToks b rest

/-- The operator string the parser builds for an additive operator token
(parser.rs line 158). -/
def addOpStr (op : Token) : String :=
  if op.kind = .Add then "+" else "-"

/-- The operator string the parser builds for a multiplicative operator
token (parser.rs line 178). -/
def mulOpStr (op : Token) : String :=
  if op.kind = .Multiply then "*" else "/"

/-- The right-associated expression tree over an identifier chain: each
operator's right-hand side is the whole tree of the rest of the chain;
every Math node sits at its left operand's position. -/
def rightTree (first : Token) : List (Token × Token) → Node
  | [] => Node.mk first.position (.Identifier first.value)
  | (op, b) :: rest =>
      Node.mk first.position
        (.Math (Node.mk first.position (.Identifier first.value))
          (rightTree b rest) (addOpStr op))

/-- The left-associated expression tree over an identifier chain, grown
from an accumulated left subtree: each step wraps the accumulator with the
next operand; every Math node sits at the accumulator's position. -/
def leftTree (acc : Node) : List (Token × Token) → Node
  | [] => acc
  | (op, b) :: rest =>
      leftTree
        (Node.mk acc.position
          (.Math acc (Node.mk b.position (.Identifier b.value)) (mulOpStr op)))
        rest

/-- The token stream of a chain with its leading operand removed:
alternating operator and operand tokens. -/
def chainSuffix : List (Token × Token) → List Token
  | [] => []
  | (op, b) :: rest => op :: chainToks b rest

/-- The right-associated expression tree grown to the right of an
already-parsed left operand: each additive operator's right-hand side is
the whole tree of the rest of the chain, and each Math node sits at its
left operand's position. -/
def addTreeFrom (x : Node) : List (Token × Token) → Node
  | [] => x
  | (op, b) :: rest =>
      Node.mk x.position
        (.Math x (addTreeFrom (Node.mk b.position (.Identifier b.value)) rest)
          (addOpStr op))

/-! ### Expression-shape checker (claim C7) -/

/-- Whether a node is a single reduced expression node: of kind Math, Int,
Float, Bool or Identifier (in particular not a List, Text or
VariableBlock). -/
def isExprHead : Node → Bool
  | .mk _ (.Math _ _ _) => true
  | .mk _ (.Int _) => true
  | .mk _ (.Float _) => true
  | .mk _ (.Bool _) => true
  | .mk _ (.Identifier _) => true
  | _ => false

mutual

/-- Every VariableBlock payload anywhere inside the node is a single
reduced expression node (Math, Int, Float, Bool or Identifier). -/
def nodeReduced : Node → Bool
  | .mk _ s => specReduced s

/-- Payload part of the VariableBlock-payload checker. -/
def specReduced : SpecificNode → Bool
  | .VariableBlock p => isExprHead p && nodeReduced p
  | .Math l r _ => nodeReduced l && nodeReduced r
  | .List cs => nodesReduced cs
  | _ => true

/-- Child-list part of the VariableBlock-payload checker. -/
def nodesReduced : List Node → Bool
  | [] => true
  | c :: cs => nodeReduced c && nodesReduced cs

end

/-! ### The add-branch continuation (claim C9) and the defer-free variant
of the expression engine (claim C10) -/

/-- The continuation of the Add/Substract branch after its recursive
whole-expression call returns (parser.rs lines 148-165): peek the next
non-space token's precedence; either defer (push the right-hand side back
and recurse), or pop the left operand from the caller's own stack and
combine it with the returned right-hand side into a Math node. -/
def add_branch_continue (fuel : Nat) (ts : List Token) (token : Token)
    (node_stack : Node) (terminator : TokenType) (rhs : Node) (i2 : Nat) :
    PRes Node :=
  match peek_non_space ts i2 with
  | .ok next_tok i3 =>
      if next_tok.precedence > token.precedence then
        parse_whole_expression fuel ts i3 (some (node_stack.push rhs)) terminator
      else
        match node_stack.pop with
        | some (lhs, rest) =>
            parse_whole_loop fuel ts i3
              (rest.push (Node.mk lhs.position (.Math lhs rhs (addOpStr token))))
              terminator
        | none => .err "pop on empty stack"
  | .err e => .err e
  | .timeout => .timeout

mutual

/-- The expression engine with the defer branch of parser.rs lines 151-153
replaced by a fatal error: used to state that the branch is dead code. -/
def parse_whole_expression_nodefer (fuel : Nat) (ts : List Token) (i : Nat)
    (stack : Option Node) (terminator : TokenType) : PRes Node :=
  match fuel with
  | 0 => .timeout
  | fuel + 1 =>
      match peek_non_space ts i with
      | .ok token i0 =>
          let node_stack := stack.getD (Node.mk token.position (.List []))
          match parse_single_expression ts i0 terminator with
          | .ok next i1 =>
              parse_whole_loop_nodefer fuel ts i1 (node_stack.push next) terminator
          | .err e => .err e
          | .timeout => .timeout
      | .err e => .err e
      | .timeout => .timeout

/-- The reduction loop with the defer branch replaced by a fatal error. -/
def parse_whole_loop_nodefer (fuel : Nat) (ts : List Token) (i : Nat)
    (node_stack : Node) (terminator : TokenType) : PRes Node :=
  match fuel with
  | 0 => .timeout
  | fuel + 1 =>
      match peek_non_space ts i with
      | .ok token i0 =>
          if token.kind = terminator then
            if node_stack.is_empty then .err "Unexpected terminator"
            else
              match node_stack.pop with
              | some (top, _) => .ok top i0
              | none => .err "pop on empty stack"
          else
            match token.kind with
            | .Add | .Substract =>
                match next_non_space ts i0 with
                | .ok _ i1 =>
                    if node_stack.is_empty then
                      parse_whole_loop_nodefer fuel ts i1 node_stack terminator
                    else
                      match parse_whole_expression_nodefer fuel ts i1
                          (some node_stack) terminator with
                      | .ok rhs i2 =>
                          match peek_non_space ts i2 with
                          | .ok next_tok i3 =>
                              if next_tok.precedence > token.precedence then
                                .err "dead defer branch"
                              else
                                match node_stack.pop with
                                | some (lhs, rest) =>
                                    parse_whole_loop_nodefer fuel ts i3
                                      (rest.push (Node.mk lhs.position
                                        (.Math lhs rhs (addOpStr token))))
                                      terminator
                                | none => .err "pop on empty stack"
                          | .err e => .err e
                          | .timeout => .timeout
                      | .err e => .err e
                      | .timeout => .timeout
                | .err e => .err e
                | .timeout => .timeout
            | .Divide | .Multiply =>
                match next_non_space ts i0 with
                | .ok _ i1 =>
                    if node_stack.is_empty then
                      .err "Unexpected division or multiplication"
                    else
                      match parse_single_expression ts i1 terminator with
                      | .ok rhs i2 =>
                          match node_stack.pop with
                          | some (lhs, rest) =>
                              parse_whole_loop_nodefer fuel ts i2
                                (rest.push (Node.mk lhs.position
                                  (.Math lhs rhs (mulOpStr token))))
                                terminator
                          | none => .err "pop on empty stack"
                      | .err e => .err e
                      | .timeout => .timeout
                | .err e => .err e
                | .timeout => .timeout
            | _ => .err "Unexpected token"
      | .err e => .err e
      | .timeout => .timeout

end

/-- A reduced expression node whose nested VariableBlock payloads (there
are none in parser output) are themselves reduced: the well-formedness the
working stack maintains for each of its elements. -/
def exprNode (n : Node) : Bool :=
  isExprHead n && nodeReduced n

/-- Every element of a working stack (a List node) is a reduced expression
node; false on a non-List node, which the parser never uses as a stack. -/
def stackExpr : Node → Bool
  | .mk _ (.List cs) => cs.all exprNode
  | _ => false

/-! ## Cursor-helper lemmas -/

/-- Full characterisation of a successful `peek_non_space`: the returned
token is the first non-space token, the returned cursor is that token's own
index (so every skipped Space token has been permanently consumed), and
everything strictly between the old and the new cursor is a Space token. -/
theorem peek_non_space_spec (ts : List Token) (tok : Token) (j : Nat) (i : Nat)
    (h : peek_non_space ts i = .ok tok j) :
    tok.kind ≠ .Space ∧ ts.get? j = some tok ∧ i ≤ j
      ∧ ∀ k, i ≤ k → k < j → ∃ s, ts.get? k = some s ∧ s.kind = .Space := by
  revert h
  induction i using peek_non_space.induct ts with
  | case1 i hnone =>
      intro h
      rw [peek_non_space, hnone] at h
      simp at h
  | case2 i t hsome hsp ih =>
      intro h
      rw [peek_non_space, hsome] at h
      simp only [hsp, if_pos] at h
      obtain ⟨h1, h2, h3, h4⟩ := ih h
      refine ⟨h1, h2, by omega, ?_⟩
      intro k hik hkj
      rcases Nat.eq_or_lt_of_le hik with rfl | hlt
      · exact ⟨t, hsome, hsp⟩
      · exact h4 k hlt hkj
  | case3 i t hsome hsp =>
      intro h
      rw [peek_non_space, hsome] at h
      simp only [if_neg hsp] at h
      obtain ⟨rfl, rfl⟩ : t = tok ∧ i = j := by simpa using h
      exact ⟨hsp, hsome, le_refl _, fun k hik hkj => absurd hkj (by omega)⟩

/-- A successful `peek_non_space` never moves the cursor past the end of
the token list: it stops at the found token's index. -/
theorem peek_non_space_lt_length (ts : List Token) (tok : Token) (j i : Nat)
    (h : peek_non_space ts i = .ok tok j) : j < ts.length := by
  obtain ⟨-, h2, -, -⟩ := peek_non_space_spec ts tok j i h
  exact (List.get?_eq_some.mp h2).1

/-- `peek_non_space` at a non-space token returns it without moving. -/
theorem peek_non_space_at (ts : List Token) (i : Nat) (t : Token)
    (hsome : ts.get? i = some t) (hsp : t.kind ≠ .Space) :
    peek_non_space ts i = .ok t i := by
  rw [peek_non_space, hsome]
  simp [hsp]

/-- `peek_non_space` skips a Space token. -/
theorem peek_non_space_skip (ts : List Token) (i : Nat) (t : Token)
    (hsome : ts.get? i = some t) (hsp : t.kind = .Space) :
    peek_non_space ts i = peek_non_space ts (i + 1) := by
  rw [peek_non_space, hsome]
  simp [hsp]

/-- `peek_non_space` needs no fuel: it never times out. -/
theorem peek_non_space_no_timeout (ts : List Token) (i : Nat) :
    peek_non_space ts i ≠ .timeout := by
  induction i using peek_non_space.induct ts with
  | case1 i hnone => rw [peek_non_space, hnone]; simp
  | case2 i t hsome hsp ih => rw [peek_non_space, hsome]; simpa [hsp] using ih
  | case3 i t hsome hsp => rw [peek_non_space, hsome]; simp [hsp]

/-- `next_non_space` is `peek_non_space` followed by consuming the found
token: same token, cursor one further. -/
theorem next_non_space_eq (ts : List Token) (i : Nat) :
    next_non_space ts i =
      match peek_non_space ts i with
      | .ok t j => .ok t (j + 1)
      | .err e => .err e
      | .timeout => .timeout := by
  induction i using peek_non_space.induct ts with
  | case1 i hnone => rw [next_non_space, hnone, peek_non_space, hnone]
  | case2 i t hsome hsp ih =>
      rw [next_non_space, hsome, peek_non_space, hsome]
      simpa [hsp] using ih
  | case3 i t hsome hsp =>
      rw [next_non_space, hsome, peek_non_space, hsome]
      simp [hsp]

/-- Full characterisation of a successful `next_non_space`: the consumed
token is the first non-space token, located directly before the returned
cursor, and the cursor strictly advances but stays within bounds. -/
theorem next_non_space_spec (ts : List Token) (tok : Token) (j : Nat) (i : Nat)
    (h : next_non_space ts i = .ok tok j) :
    tok.kind ≠ .Space ∧ ts.get? (j - 1) = some tok ∧ i < j ∧ j ≤ ts.length := by
  rw [next_non_space_eq] at h
  cases hp : peek_non_space ts i with
  | ok t j0 =>
      rw [hp] at h
      have heq : t = tok ∧ j0 + 1 = j := by simpa using h
      obtain ⟨h1, h2, h3, -⟩ := peek_non_space_spec ts t j0 i hp
      have hlt := (List.get?_eq_some.mp h2).1
      obtain ⟨rfl, rfl⟩ := heq
      exact ⟨h1, by simpa using h2, by omega, by omega⟩
  | err e => rw [hp] at h; simp at h
  | timeout => exact absurd hp (peek_non_space_no_timeout ts i)

/-- `next_non_space` never times out. -/
theorem next_non_space_no_timeout (ts : List Token) (i : Nat) :
    next_non_space ts i ≠ .timeout := by
  rw [next_non_space_eq]
  cases hp : peek_non_space ts i with
  | ok t j => simp
  | err e => simp
  | timeout => exact absurd hp (peek_non_space_no_timeout ts i)


/-- A successful `parse_identifier` strictly advances the cursor and stays
within bounds. -/
theorem parse_identifier_progress (ts : List Token) (i : Nat) (n : Node) (j : Nat)
    (h : parse_identifier ts i = .ok n j) : i < j ∧ j ≤ ts.length := by
  rw [parse_identifier] at h
  cases hn : next_non_space ts i with
  | ok t j0 =>
      rw [hn] at h
      dsimp only at h
      obtain ⟨-, hj⟩ : _ ∧ j0 = j := by simpa using h
      obtain ⟨-, -, h3, h4⟩ := next_non_space_spec ts t j0 i hn
      omega
  | err e => rw [hn] at h; simp at h
  | timeout => exact absurd hn (next_non_space_no_timeout ts i)

/-- `parse_identifier` never times out. -/
theorem parse_identifier_no_timeout (ts : List Token) (i : Nat) :
    parse_identifier ts i ≠ .timeout := by
  rw [parse_identifier]
  cases hn : next_non_space ts i with
  | ok t j0 => simp
  | err e => simp
  | timeout => exact absurd hn (next_non_space_no_timeout ts i)

/-- A successful `parse_literal` returns the cursor produced by its
consuming read of the literal token. -/
theorem parse_literal_cursor (ts : List Token) (i : Nat) (n : Node) (j : Nat)
    (h : parse_literal ts i = .ok n j) :
    ∃ t, next_non_space ts i = .ok t j := by
  rw [parse_literal] at h
  cases hn : next_non_space ts i with
  | ok t j0 =>
      rw [hn] at h
      dsimp only at h
      refine ⟨t, ?_⟩
      split at h
      · split at h
        · obtain ⟨-, rfl⟩ : _ ∧ j0 = j := by simpa using h
          first | exact hn | rfl
        · simp at h
      · split at h
        · obtain ⟨-, rfl⟩ : _ ∧ j0 = j := by simpa using h
          first | exact hn | rfl
        · simp at h
      · obtain ⟨-, rfl⟩ : _ ∧ j0 = j := by simpa using h
        first | exact hn | rfl
      · simp at h
  | err e => rw [hn] at h; simp at h
  | timeout => exact absurd hn (next_non_space_no_timeout ts i)

/-- A successful `parse_literal` strictly advances the cursor and stays
within bounds. -/
theorem parse_literal_progress (ts : List Token) (i : Nat) (n : Node) (j : Nat)
    (h : parse_literal ts i = .ok n j) : i < j ∧ j ≤ ts.length := by
  obtain ⟨t, hn⟩ := parse_literal_cursor ts i n j h
  obtain ⟨-, -, h3, h4⟩ := next_non_space_spec ts t j i hn
  omega

/-- `parse_literal` never times out. -/
theorem parse_literal_no_timeout (ts : List Token) (i : Nat) :
    parse_literal ts i ≠ .timeout := by
  rw [parse_literal]
  cases hn : next_non_space ts i with
  | ok t j0 =>
      dsimp only
      split
      · split <;> simp
      · split <;> simp
      · simp
      · simp
  | err e => simp
  | timeout => exact absurd hn (next_non_space_no_timeout ts i)

/-- A successful `parse_single_expression` strictly advances the cursor and
stays within bounds. -/
theorem parse_single_expression_progress (ts : List Token) (i : Nat)
    (terminator : TokenType) (n : Node) (j : Nat)
    (h : parse_single_expression ts i terminator = .ok n j) :
    i < j ∧ j ≤ ts.length := by
  rw [parse_single_expression] at h
  cases hp : peek_non_space ts i with
  | ok t i0 =>
      rw [hp] at h
      dsimp only at h
      obtain ⟨-, -, hi0, -⟩ := peek_non_space_spec ts t i0 i hp
      split at h
      · simp at h
      · split at h
        · have := parse_identifier_progress ts i0 n j h
          omega
        · have := parse_literal_progress ts i0 n j h
          omega
        · have := parse_literal_progress ts i0 n j h
          omega
        · have := parse_literal_progress ts i0 n j h
          omega
        · simp at h
        · simp at h
        · simp at h
  | err e => rw [hp] at h; simp at h
  | timeout => exact absurd hp (peek_non_space_no_timeout ts i)

/-- `parse_single_expression` never times out. -/
theorem parse_single_expression_no_timeout (ts : List Token) (i : Nat)
    (terminator : TokenType) :
    parse_single_expression ts i terminator ≠ .timeout := by
  rw [parse_single_expression]
  cases hp : peek_non_space ts i with
  | ok t i0 =>
      dsimp only
      split
      · simp
      · split
        · exact parse_identifier_no_timeout ts i0
        · exact parse_literal_no_timeout ts i0
        · exact parse_literal_no_timeout ts i0
        · exact parse_literal_no_timeout ts i0
        · simp
        · simp
        · simp
  | err e => simp
  | timeout => exact absurd hp (peek_non_space_no_timeout ts i)

/-- A successful `expect` strictly advances the cursor and stays within
bounds. -/
theorem expect_progress (ts : List Token) (i : Nat) (kind : TokenType)
    (t : Token) (j : Nat) (h : expect ts i kind = .ok t j) :
    i < j ∧ j ≤ ts.length := by
  rw [expect] at h
  cases hp : peek_non_space ts i with
  | ok tok i0 =>
      rw [hp] at h
      dsimp only at h
      obtain ⟨-, -, hi0, -⟩ := peek_non_space_spec ts tok i0 i hp
      split at h
      · simp at h
      · obtain ⟨-, -, h3, h4⟩ := next_non_space_spec ts t j i0 h
        omega
  | err e => rw [hp] at h; simp at h
  | timeout => exact absurd hp (peek_non_space_no_timeout ts i)

/-- A successful `expect` returns a token of the expected kind: the one
found by the whitespace-skipping peek. -/
theorem expect_kind (ts : List Token) (i : Nat) (kind : TokenType)
    (t : Token) (j : Nat) (h : expect ts i kind = .ok t j) :
    t.kind = kind := by
  rw [expect] at h
  cases hp : peek_non_space ts i with
  | ok tok i0 =>
      rw [hp] at h
      dsimp only at h
      split at h
      · simp at h
      · rename_i hkk
        obtain ⟨h1, h2, -, -⟩ := peek_non_space_spec ts tok i0 i hp
        obtain ⟨-, hjt, -, -⟩ := next_non_space_spec ts t j i0 h
        -- the consuming read from the peeked index yields the same token
        have hpn : peek_non_space ts i0 = .ok tok i0 := peek_non_space_at ts i0 tok h2 h1
        have := next_non_space_eq ts i0
        rw [hpn] at this
        rw [this] at h
        obtain ⟨rfl, -⟩ : tok = t ∧ i0 + 1 = j := by simpa using h
        simpa using hkk
  | err e => rw [hp] at h; simp at h
  | timeout => exact absurd hp (peek_non_space_no_timeout ts i)

/-- `expect` never times out. -/
theorem expect_no_timeout (ts : List Token) (i : Nat) (kind : TokenType) :
    expect ts i kind ≠ .timeout := by
  rw [expect]
  cases hp : peek_non_space ts i with
  | ok tok i0 =>
      dsimp only
      split
      · simp
      · exact next_non_space_no_timeout ts i0
  | err e => simp
  | timeout => exact absurd hp (peek_non_space_no_timeout ts i)

/-! ## Claim theorems -/

/-- C1: parsing the variable block around `1 / 2 + 3 * 2 + 42` produces a
root whose only child is a VariableBlock holding the tree
`(1/2) + ((3*2) + 42)`: each additive operator combines its left operand
with everything parsed to its right up to the end of the expression, and
the multiplicative nodes sit as children of additive nodes. -/
theorem claim_C1 :
    runParse 50 complexToks =
      .ok (Node.mk 0 (.List [Node.mk 0 (.VariableBlock
        (Node.mk 3 (.Math
          (Node.mk 3 (.Math (Node.mk 3 (.Int 1)) (Node.mk 7 (.Int 2)) "/"))
          (Node.mk 11 (.Math
            (Node.mk 11 (.Math (Node.mk 11 (.Int 3)) (Node.mk 15 (.Int 2)) "*"))
            (Node.mk 19 (.Int 42)) "+"))
          "+")))])) 21 := by
  simp [runParse, parse, parse_next, parse_variable_block, expect,
    parse_whole_expression, parse_whole_loop, parse_single_expression,
    parse_literal, parse_identifier, peek_non_space, next_non_space, peek,
    next_token, parseI32, Node.push, Node.pop, Node.is_empty, Node.position,
    complexToks, vsTok, veTok, spTok, eofTok, intTok, addTok, mulTok, divTok,
    Token.precedence, TokenType.precedence]

/-- C3: for each operator among `+ - * /`, parsing the spaceless variable
block around `1<op>42` yields exactly one VariableBlock child holding
`Math` with lhs `Int 1` at offset 2, rhs `Int 42` at offset 4, the matching
operator string, and the Math node positioned at the left operand's
offset. -/
theorem claim_C3 :
    runParse 50 (basicToks (addTok 3)) = basicExpected "+"
      ∧ runParse 50 (basicToks (subTok 3)) = basicExpected "-"
      ∧ runParse 50 (basicToks (mulTok 3)) = basicExpected "*"
      ∧ runParse 50 (basicToks (divTok 3)) = basicExpected "/" := by
  refine ⟨?_, ?_, ?_, ?_⟩ <;>
    simp [runParse, parse, parse_next, parse_variable_block, expect,
      parse_whole_expression, parse_whole_loop, parse_single_expression,
      parse_literal, parse_identifier, peek_non_space, next_non_space, peek,
      next_token, parseI32, Node.push, Node.pop, Node.is_empty, Node.position,
      basicToks, basicExpected, vsTok, veTok, eofTok, intTok, addTok, subTok,
      mulTok, divTok, Token.precedence, TokenType.precedence]

/-- C4: each of the three malformed inputs — an opening marker with nothing
after it, a leading unary operator, and a multiplication missing its right
operand — makes the parse abort with a fatal error; an error result carries
no partial tree. -/
theorem claim_C4 :
    runParse 50 [vsTok 0, eofTok 2] = .err "unexpected"
      ∧ runParse 50 [vsTok 0, addTok 2, intTok "1" 3, veTok 4, eofTok 6] =
          .err "wololo"
      ∧ runParse 50 [vsTok 0, intTok "1" 2, mulTok 3, veTok 4, eofTok 6] =
          .err "Unexpected terminator" := by
  refine ⟨?_, ?_, ?_⟩ <;>
    simp [runParse, parse, parse_next, parse_variable_block, expect,
      parse_whole_expression, parse_whole_loop, parse_single_expression,
      parse_literal, parse_identifier, peek_non_space, next_non_space, peek,
      next_token, parseI32, Node.push, Node.pop, Node.is_empty, Node.position,
      vsTok, veTok, eofTok, intTok, addTok, mulTok,
      Token.precedence, TokenType.precedence]

/-- C2 counterexample: the additive chain `1+2+3` does not parse
left-associated. The parse succeeds and returns the right-associated tree
with `Math(2, 3)` as the right child of the outer node, which differs from
the left-associated tree the claim requires for every single-tier chain. -/
theorem claim_C2_counterexample :
    runParse 50 chain123Toks =
      .ok (Node.mk 0 (.List [Node.mk 0 (.VariableBlock
        (Node.mk 2 (.Math (Node.mk 2 (.Int 1))
          (Node.mk 4 (.Math (Node.mk 4 (.Int 2)) (Node.mk 6 (.Int 3)) "+"))
          "+")))])) 7
      ∧ Node.mk 2 (.Math (Node.mk 2 (.Int 1))
          (Node.mk 4 (.Math (Node.mk 4 (.Int 2)) (Node.mk 6 (.Int 3)) "+")) "+")
        ≠ Node.mk 2 (.Math
            (Node.mk 2 (.Math (Node.mk 2 (.Int 1)) (Node.mk 4 (.Int 2)) "+"))
            (Node.mk 6 (.Int 3)) "+") := by
  refine ⟨?_, by simp⟩
  simp [runParse, parse, parse_next, parse_variable_block, expect,
    parse_whole_expression, parse_whole_loop, parse_single_expression,
    parse_literal, parse_identifier, peek_non_space, next_non_space, peek,
    next_token, parseI32, Node.push, Node.pop, Node.is_empty, Node.position,
    chain123Toks, vsTok, veTok, eofTok, intTok, addTok,
    Token.precedence, TokenType.precedence]

/-- C5: for every Bool token consumed by `parse_literal`, the produced leaf
sits at the token's byte offset and holds false exactly when the token text
equals the word false, true for every other text (misspellings included). -/
theorem claim_C5 (ts : List Token) (i : Nat) (tok : Token) (j : Nat)
    (hnext : next_non_space ts i = .ok tok j) (hkind : tok.kind = .Bool) :
    parse_literal ts i =
        .ok (Node.mk tok.position
          (.Bool (if tok.value = "false" then false else true))) j
      ∧ ((if tok.value = "false" then false else true) = false
          ↔ tok.value = "false") := by
  constructor
  · rw [parse_literal, hnext]
    dsimp only
    rw [hkind]
  · by_cases hv : tok.value = "false" <;> simp [hv]

/-- C5 witness: a Bool token misspelt as flase at offset 7 parses to the
node `Bool true` at position 7. -/
theorem claim_C5_witness :
    parse_literal [⟨.Bool, "flase", 7⟩] 0 =
        .ok (Node.mk 7 (.Bool (if "flase" = "false" then false else true))) 1
      ∧ ((if "flase" = "false" then false else true) = false
          ↔ "flase" = "false") :=
  claim_C5 [⟨.Bool, "flase", 7⟩] 0 ⟨.Bool, "flase", 7⟩ 1
    (by rw [next_non_space]; simp) rfl

/-- C6 counterexample: with a Space token at the cursor, `peek_non_space`
returns with the cursor advanced to the found token's index 1, not restored
to its pre-call value 0: the skipped Space token is permanently consumed. -/
theorem claim_C6_counterexample :
    peek_non_space [spTok 0, intTok "1" 1, eofTok 2] 0 = .ok (intTok "1" 1) 1
      ∧ (1 : Nat) ≠ 0 := by
  refine ⟨?_, by decide⟩
  rw [peek_non_space]
  simp only [List.get?, spTok]
  rw [peek_non_space]
  simp [intTok]

/-- C6 amended: `peek_non_space` returns the first non-space token without
consuming that token itself; afterwards the cursor sits at the returned
token's own index — its pre-call value plus the number of skipped Space
tokens, which are thereby permanently consumed (the cursor is unchanged
exactly when no Space tokens intervene). -/
theorem claim_C6_amended (ts : List Token) (tok : Token) (j : Nat) (i : Nat)
    (h : peek_non_space ts i = .ok tok j) :
    tok.kind ≠ .Space ∧ ts.get? j = some tok ∧ i ≤ j
      ∧ ∀ k, i ≤ k → k < j → ∃ s, ts.get? k = some s ∧ s.kind = .Space :=
  peek_non_space_spec ts tok j i h

/-- C6 amended, witness: on the stream Space-then-identifier the peek
returns the identifier token with the cursor moved to its index 1, and the
single skipped token is the Space. -/
theorem claim_C6_amended_witness :
    (identTok "x" 1).kind ≠ .Space
      ∧ [spTok 0, identTok "x" 1, eofTok 2].get? 1 = some (identTok "x" 1)
      ∧ 0 ≤ 1
      ∧ ∀ k, 0 ≤ k → k < 1 →
          ∃ s, [spTok 0, identTok "x" 1, eofTok 2].get? k = some s
            ∧ s.kind = .Space :=
  claim_C6_amended [spTok 0, identTok "x" 1, eofTok 2] (identTok "x" 1) 1 0
    (by rw [peek_non_space]
        simp only [List.get?, spTok]
        rw [peek_non_space]
        simp [identTok])

/-- C9: in the Add/Substract branch the recursive whole-expression call
receives the caller's stack by value (the source passes a clone), and the
only data flowing back into the caller is the returned right-hand-side node
and the advanced cursor: the continuation combines or defers using the
caller's own, unmodified `node_stack`. -/
theorem claim_C9 (fuel : Nat) (ts : List Token) (i : Nat) (node_stack : Node)
    (terminator : TokenType) (token : Token) (i0 i1 : Nat) (tok2 : Token)
    (hpeek : peek_non_space ts i = .ok token i0)
    (hkind : token.kind = .Add ∨ token.kind = .Substract)
    (hterm : token.kind ≠ terminator)
    (hnext : next_non_space ts i0 = .ok tok2 i1)
    (hne : node_stack.is_empty = false) :
    parse_whole_loop (fuel + 1) ts i node_stack terminator =
      match parse_whole_expression fuel ts i1 (some node_stack) terminator with
      | .ok rhs i2 => add_branch_continue fuel ts token node_stack terminator rhs i2
      | .err e => .err e
      | .timeout => .timeout := by
  rw [parse_whole_loop, hpeek]
  dsimp only
  rw [if_neg hterm]
  rcases hkind with hk | hk <;>
    (rw [hk]
     try dsimp only
     rw [hnext]
     try dsimp only
     rw [hne]
     try dsimp only
     cases hres : parse_whole_expression fuel ts i1 (some node_stack) terminator with
     | ok rhs i2 =>
         try dsimp only
         rw [add_branch_continue]
         cases hp2 : peek_non_space ts i2 with
         | ok next_tok i3 =>
             try dsimp only
             try simp only [addOpStr, hk]
             try rfl
         | err e => rfl
         | timeout => rfl
     | err e => rfl
     | timeout => rfl)

/-- C9 witness: at the concrete stream `1 + 2 terminator` with the stack
holding the already-parsed operand 1, the loop step factors through the
recursive call on the cloned stack exactly as claim C9 states. -/
theorem claim_C9_witness :
    parse_whole_loop (10 + 1) [intTok "1" 0, addTok 1, intTok "2" 2, veTok 3, eofTok 5]
        1 (Node.mk 0 (.List [Node.mk 0 (.Int 1)])) .VariableEnd =
      match parse_whole_expression 10 [intTok "1" 0, addTok 1, intTok "2" 2, veTok 3, eofTok 5]
          2 (some (Node.mk 0 (.List [Node.mk 0 (.Int 1)]))) .VariableEnd with
      | .ok rhs i2 =>
          add_branch_continue 10 [intTok "1" 0, addTok 1, intTok "2" 2, veTok 3, eofTok 5]
            (addTok 1) (Node.mk 0 (.List [Node.mk 0 (.Int 1)])) .VariableEnd rhs i2
      | .err e => .err e
      | .timeout => .timeout :=
  claim_C9 10 [intTok "1" 0, addTok 1, intTok "2" 2, veTok 3, eofTok 5] 1
    (Node.mk 0 (.List [Node.mk 0 (.Int 1)])) .VariableEnd (addTok 1) 1 2 (addTok 1)
    (by rw [peek_non_space]; simp [List.get?, addTok])
    (Or.inl rfl)
    (by simp [addTok])
    (by rw [next_non_space]; simp [List.get?, addTok])
    rfl

/-- A successful run of the expression engine always stops with the cursor
sitting on the terminator token: every successful return of
`parse_whole_expression` or of its reduction loop happens at the
whitespace-skipping peek of the terminator, which is not consumed. -/
theorem whole_expression_stops_at_terminator (fuel : Nat) :
    (∀ ts i stack term n j,
        parse_whole_expression fuel ts i stack term = .ok n j →
        ∃ t, peek_non_space ts j = .ok t j ∧ t.kind = term)
      ∧ (∀ ts i st term n j,
          parse_whole_loop fuel ts i st term = .ok n j →
          ∃ t, peek_non_space ts j = .ok t j ∧ t.kind = term) := by
  induction fuel with
  | zero =>
      constructor
      · intro ts i stack term n j h
        rw [parse_whole_expression] at h
        simp at h
      · intro ts i st term n j h
        rw [parse_whole_loop] at h
        simp at h
  | succ fuel ih =>
      constructor
      · intro ts i stack term n j h
        rw [parse_whole_expression] at h
        cases hp : peek_non_space ts i with
        | ok token i0 =>
            rw [hp] at h
            dsimp only at h
            cases hs : parse_single_expression ts i0 term with
            | ok next i1 =>
                rw [hs] at h
                exact ih.2 _ _ _ _ _ _ h
            | err e => rw [hs] at h; simp at h
            | timeout => exact absurd hs (parse_single_expression_no_timeout ts i0 term)
        | err e => rw [hp] at h; simp at h
        | timeout => exact absurd hp (peek_non_space_no_timeout ts i)
      · intro ts i st term n j h
        rw [parse_whole_loop] at h
        cases hp : peek_non_space ts i with
        | ok token i0 =>
            rw [hp] at h
            dsimp only at h
            by_cases hterm : token.kind = term
            · rw [if_pos hterm] at h
              split at h
              · simp at h
              · split at h
                · rename_i top rest hpop
                  have heq : top = n ∧ i0 = j := by simpa using h
                  obtain ⟨-, rfl⟩ := heq
                  obtain ⟨h1, h2, -, -⟩ := peek_non_space_spec ts token i0 i hp
                  exact ⟨token, peek_non_space_at ts i0 token h2 h1, hterm⟩
                · simp at h
            · rw [if_neg hterm] at h
              repeat' split at h
              all_goals
                first
                  | simp at h
                  | exact ih.2 _ _ _ _ _ _ h
                  | exact ih.1 _ _ _ _ _ _ h
        | err e => rw [hp] at h; simp at h
        | timeout => exact absurd hp (peek_non_space_no_timeout ts i)

/-- The equivalence argument for the additive branch, shared between Add
and Substract: given the induction hypotheses for smaller fuel, the branch
computes the same with the defer branch replaced by an error, because after
the recursive call the cursor rests on the terminator, whose precedence
cannot exceed an additive operator's. -/
theorem add_branch_nodefer (fuel : Nat)
    (ih1 : ∀ ts i stack term, TokenType.precedence term ≤ TokenType.precedence .Add →
        parse_whole_expression fuel ts i stack term =
          parse_whole_expression_nodefer fuel ts i stack term)
    (ih2 : ∀ ts i st term, TokenType.precedence term ≤ TokenType.precedence .Add →
        parse_whole_loop fuel ts i st term = parse_whole_loop_nodefer fuel ts i st term)
    (ts : List Token) (i1 : Nat) (st : Node) (term : TokenType)
    (ht : TokenType.precedence term ≤ TokenType.precedence .Add)
    (token : Token) (hk : token.kind = .Add ∨ token.kind = .Substract) :
    (match parse_whole_expression fuel ts i1 (some st) term with
      | .ok rhs i2 =>
          match peek_non_space ts i2 with
          | .ok next_tok i3 =>
              if Token.precedence next_tok > Token.precedence token then
                parse_whole_expression fuel ts i3 (some (st.push rhs)) term
              else
                match st.pop with
                | some (lhs, rest) =>
                    parse_whole_loop fuel ts i3
                      (rest.push (Node.mk lhs.position
                        (.Math lhs rhs (addOpStr token)))) term
                | none => .err "pop on empty stack"
          | .err e => .err e
          | .timeout => .timeout
      | .err e => .err e
      | .timeout => .timeout) =
    (match parse_whole_expression_nodefer fuel ts i1 (some st) term with
      | .ok rhs i2 =>
          match peek_non_space ts i2 with
          | .ok next_tok i3 =>
              if Token.precedence next_tok > Token.precedence token then
                .err "dead defer branch"
              else
                match st.pop with
                | some (lhs, rest) =>
                    parse_whole_loop_nodefer fuel ts i3
                      (rest.push (Node.mk lhs.position
                        (.Math lhs rhs (addOpStr token)))) term
                | none => .err "pop on empty stack"
          | .err e => .err e
          | .timeout => .timeout
      | .err e => .err e
      | .timeout => .timeout) := by
  rw [← ih1 ts i1 (some st) term ht]
  cases hres : parse_whole_expression fuel ts i1 (some st) term with
  | ok rhs i2 =>
      dsimp only
      obtain ⟨t, hpt, htk⟩ :=
        (whole_expression_stops_at_terminator fuel).1 ts i1 (some st) term rhs i2 hres
      cases hp2 : peek_non_space ts i2 with
      | ok next_tok i3 =>
          dsimp only
          rw [hpt] at hp2
          have heq : t = next_tok ∧ i2 = i3 := by simpa using hp2
          obtain ⟨rfl, rfl⟩ := heq
          have hcond : ¬ (Token.precedence t > Token.precedence token) := by
            rcases hk with hk | hk <;>
              (simp only [Token.precedence, htk, hk, TokenType.precedence] at ht ⊢
               omega)
          simp only [if_neg hcond]
          cases hpop : st.pop with
          | some pr =>
              cases pr with
              | mk lhs rest =>
                  dsimp only
                  exact ih2 _ _ _ _ ht
          | none => rfl
      | err e => rfl
      | timeout => rfl
  | err e => rfl
  | timeout => rfl

/-- The expression engine never takes the defer branch when the terminator
cannot out-rank an additive operator: it computes exactly what the variant
with that branch replaced by an error computes. -/
theorem nodefer_equiv (fuel : Nat) :
    (∀ ts i stack term, TokenType.precedence term ≤ TokenType.precedence .Add →
        parse_whole_expression fuel ts i stack term =
          parse_whole_expression_nodefer fuel ts i stack term)
      ∧ (∀ ts i st term, TokenType.precedence term ≤ TokenType.precedence .Add →
          parse_whole_loop fuel ts i st term =
            parse_whole_loop_nodefer fuel ts i st term) := by
  induction fuel with
  | zero =>
      refine ⟨?_, ?_⟩
      · intro ts i stack term ht
        rw [parse_whole_expression, parse_whole_expression_nodefer]
      · intro ts i st term ht
        rw [parse_whole_loop, parse_whole_loop_nodefer]
  | succ fuel ih =>
      refine ⟨?_, ?_⟩
      · intro ts i stack term ht
        rw [parse_whole_expression, parse_whole_expression_nodefer]
        cases hp : peek_non_space ts i with
        | ok token i0 =>
            dsimp only
            cases hs : parse_single_expression ts i0 term with
            | ok next i1 => dsimp only; exact ih.2 _ _ _ _ ht
            | err e => rfl
            | timeout => rfl
        | err e => rfl
        | timeout => rfl
      · intro ts i st term ht
        rw [parse_whole_loop, parse_whole_loop_nodefer]
        cases hp : peek_non_space ts i with
        | ok token i0 =>
            dsimp only
            by_cases hterm : token.kind = term
            · simp only [if_pos hterm]
            · simp only [if_neg hterm]
              cases hk : token.kind
              -- Text, VariableStart, VariableEnd, TagStart, TagEnd,
              -- Identifier, Int, Float, Bool: fatal on both sides
              · rfl
              · rfl
              · rfl
              · rfl
              · rfl
              · rfl
              · rfl
              · rfl
              · rfl
              -- Add
              · dsimp only
                cases hnx : next_non_space ts i0 with
                | ok tok2 i1 =>
                    dsimp only
                    by_cases hempty : st.is_empty = true
                    · simp only [if_pos hempty]
                      exact ih.2 _ _ _ _ ht
                    · simp only [if_neg hempty]
                      simpa only [addOpStr, hk] using
                        add_branch_nodefer fuel ih.1 ih.2 ts i1 st term ht
                          token (Or.inl hk)
                | err e => rfl
                | timeout => rfl
              -- Substract
              · dsimp only
                cases hnx : next_non_space ts i0 with
                | ok tok2 i1 =>
                    dsimp only
                    by_cases hempty : st.is_empty = true
                    · simp only [if_pos hempty]
                      exact ih.2 _ _ _ _ ht
                    · simp only [if_neg hempty]
                      simpa only [addOpStr, hk] using
                        add_branch_nodefer fuel ih.1 ih.2 ts i1 st term ht
                          token (Or.inr hk)
                | err e => rfl
                | timeout => rfl
              -- Multiply
              · dsimp only
                cases hnx : next_non_space ts i0 with
                | ok tok2 i1 =>
                    dsimp only
                    by_cases hempty : st.is_empty = true
                    · simp only [if_pos hempty]
                    · simp only [if_neg hempty]
                      cases hs : parse_single_expression ts i1 term with
                      | ok rhs i2 =>
                          dsimp only
                          cases hpop : st.pop with
                          | some pr =>
                              cases pr with
                              | mk lhs rest =>
                                  dsimp only
                                  simp only [mulOpStr, hk]
                                  exact ih.2 _ _ _ _ ht
                          | none => rfl
                      | err e => rfl
                      | timeout => rfl
                | err e => rfl
                | timeout => rfl
              -- Divide
              · dsimp only
                cases hnx : next_non_space ts i0 with
                | ok tok2 i1 =>
                    dsimp only
                    by_cases hempty : st.is_empty = true
                    · simp only [if_pos hempty]
                    · simp only [if_neg hempty]
                      cases hs : parse_single_expression ts i1 term with
                      | ok rhs i2 =>
                          dsimp only
                          cases hpop : st.pop with
                          | some pr =>
                              cases pr with
                              | mk lhs rest =>
                                  dsimp only
                                  simp only [mulOpStr, hk]
                                  exact ih.2 _ _ _ _ ht
                          | none => rfl
                      | err e => rfl
                      | timeout => rfl
                | err e => rfl
                | timeout => rfl
              -- Space, EOF
              · rfl
              · rfl
        | err e => rfl
        | timeout => rfl

/-- C10: whenever the whole-expression parser (and hence the recursive call
in the Add/Substract branch) returns successfully, the next non-space token
at the returned cursor is the terminator; consequently, when the terminator
cannot out-rank an additive operator (it never can in this program, which
only ever passes VariableEnd), the engine computes exactly what the variant
with the defer branch replaced by an error computes: the defer branch never
executes. -/
theorem claim_C10 (fuel : Nat) (ts : List Token) (i : Nat) (stack : Option Node)
    (term : TokenType) :
    (∀ n j, parse_whole_expression fuel ts i stack term = .ok n j →
        ∃ t, peek_non_space ts j = .ok t j ∧ t.kind = term)
      ∧ (TokenType.precedence term ≤ TokenType.precedence .Add →
          parse_whole_expression fuel ts i stack term =
            parse_whole_expression_nodefer fuel ts i stack term) :=
  ⟨fun n j h => (whole_expression_stops_at_terminator fuel).1 ts i stack term n j h,
   fun ht => (nodefer_equiv fuel).1 ts i stack term ht⟩

/-- C10 witness: on the single-operand stream the successful parse stops
with the cursor peeking the VariableEnd terminator, and on the chain
`1+2+3` inside markers the engine agrees with its defer-free variant at
the VariableEnd terminator. -/
theorem claim_C10_witness :
    (∃ t, peek_non_space [intTok "1" 0, veTok 1, eofTok 3] 1 = .ok t 1
        ∧ t.kind = .VariableEnd)
      ∧ parse_whole_expression 20 chain123Toks 1 none .VariableEnd =
          parse_whole_expression_nodefer 20 chain123Toks 1 none .VariableEnd :=
  ⟨(claim_C10 20 [intTok "1" 0, veTok 1, eofTok 3] 0 none .VariableEnd).1
      (Node.mk 0 (.Int 1)) 1
      (by simp [parse_whole_expression, parse_whole_loop,
            parse_single_expression, parse_literal, peek_non_space,
            next_non_space, parseI32, Node.push, Node.pop, Node.is_empty,
            intTok, veTok, eofTok]),
   (claim_C10 20 chain123Toks 1 none .VariableEnd).2 (by decide)⟩

/-! ## Shape of parser output (claim C7) -/

/-- Pushing a reduced expression node onto a well-formed working stack
keeps the stack well formed. -/
theorem stackExpr_push (st c : Node) (hst : stackExpr st = true)
    (hc : exprNode c = true) : stackExpr (st.push c) = true := by
  cases st with
  | mk p s =>
      cases s <;> simp_all [stackExpr, Node.push, List.all_append]

/-- Popping a well-formed working stack yields a reduced expression node
and a well-formed remainder. -/
theorem stackExpr_pop (st c rest : Node) (hst : stackExpr st = true)
    (hpop : st.pop = some (c, rest)) :
    exprNode c = true ∧ stackExpr rest = true := by
  cases st with
  | mk p s =>
      cases s <;> simp_all [stackExpr, Node.pop]
      rename_i cs
      cases hlast : cs.getLast? with
      | some c' =>
          rw [hlast] at hpop
          have heq : c' = c ∧ Node.mk p (.List cs.dropLast) = rest := by
            simpa using hpop
          obtain ⟨rfl, rfl⟩ := heq
          constructor
          · exact hst c' (List.mem_of_mem_getLast? hlast)
          · simp only [stackExpr, List.all_eq_true]
            intro x hx
            exact hst x (List.dropLast_subset cs hx)
      | none => rw [hlast] at hpop; simp at hpop

/-- A Math node over two reduced expression operands is itself a reduced
expression node. -/
theorem exprNode_math (p : Nat) (lhs rhs : Node) (op : String)
    (hl : exprNode lhs = true) (hr : exprNode rhs = true) :
    exprNode (Node.mk p (.Math lhs rhs op)) = true := by
  simp only [exprNode, Bool.and_eq_true] at hl hr ⊢
  exact ⟨rfl, by simp [nodeReduced, specReduced, hl.2, hr.2]⟩

/-- `parse_identifier` produces a reduced expression leaf. -/
theorem parse_identifier_exprNode (ts : List Token) (i : Nat) (n : Node) (j : Nat)
    (h : parse_identifier ts i = .ok n j) : exprNode n = true := by
  rw [parse_identifier] at h
  cases hn : next_non_space ts i with
  | ok tok j0 =>
      rw [hn] at h
      dsimp only at h
      have heq : Node.mk tok.position (.Identifier tok.value) = n ∧ j0 = j := by
        simpa using h
      obtain ⟨rfl, -⟩ := heq
      simp [exprNode, isExprHead, nodeReduced, specReduced]
  | err e => rw [hn] at h; simp at h
  | timeout => exact absurd hn (next_non_space_no_timeout ts i)

/-- `parse_literal` produces a reduced expression leaf. -/
theorem parse_literal_exprNode (ts : List Token) (i : Nat) (n : Node) (j : Nat)
    (h : parse_literal ts i = .ok n j) : exprNode n = true := by
  rw [parse_literal] at h
  cases hn : next_non_space ts i with
  | ok tok j0 =>
      rw [hn] at h
      dsimp only at h
      split at h
      · -- Int
        cases hv : parseI32 tok.value with
        | some v =>
            rw [hv] at h
            have heq : Node.mk tok.position (.Int v) = n ∧ j0 = j := by
              simpa using h
            obtain ⟨rfl, -⟩ := heq
            simp [exprNode, isExprHead, nodeReduced, specReduced]
        | none => rw [hv] at h; simp at h
      · -- Float
        split at h
        · have heq : Node.mk tok.position (.Float tok.value) = n ∧ j0 = j := by
            simpa using h
          obtain ⟨rfl, -⟩ := heq
          simp [exprNode, isExprHead, nodeReduced, specReduced]
        · simp at h
      · -- Bool
        have heq : Node.mk tok.position
            (.Bool (if tok.value = "false" then false else true)) = n ∧ j0 = j := by
          simpa using h
        obtain ⟨rfl, -⟩ := heq
        simp [exprNode, isExprHead, nodeReduced, specReduced]
      · simp at h
  | err e => rw [hn] at h; simp at h
  | timeout => exact absurd hn (next_non_space_no_timeout ts i)

/-- The single-operand parser only produces reduced expression leaves. -/
theorem parse_single_expression_exprNode (ts : List Token) (i : Nat)
    (terminator : TokenType) (n : Node) (j : Nat)
    (h : parse_single_expression ts i terminator = .ok n j) :
    exprNode n = true := by
  rw [parse_single_expression] at h
  cases hp : peek_non_space ts i with
  | ok t i0 =>
      rw [hp] at h
      dsimp only at h
      split at h
      · simp at h
      · split at h
        · exact parse_identifier_exprNode ts i0 n j h
        · exact parse_literal_exprNode ts i0 n j h
        · exact parse_literal_exprNode ts i0 n j h
        · exact parse_literal_exprNode ts i0 n j h
        · simp at h
        · simp at h
        · simp at h
  | err e => rw [hp] at h; simp at h
  | timeout => exact absurd hp (peek_non_space_no_timeout ts i)

/-- The expression engine only returns reduced expression nodes, provided
every element of the supplied working stack (if any) is one: operands come
from the single-operand parser and combinations are Math nodes over
already-reduced operands. -/
theorem whole_expression_exprNode (fuel : Nat) :
    (∀ ts i stack term n j,
        (stack = none ∨ ∃ s, stack = some s ∧ stackExpr s = true) →
        parse_whole_expression fuel ts i stack term = .ok n j →
        exprNode n = true)
      ∧ (∀ ts i st term n j, stackExpr st = true →
          parse_whole_loop fuel ts i st term = .ok n j →
          exprNode n = true) := by
  induction fuel with
  | zero =>
      refine ⟨?_, ?_⟩
      · intro ts i stack term n j hstack h
        rw [parse_whole_expression] at h
        simp at h
      · intro ts i st term n j hst h
        rw [parse_whole_loop] at h
        simp at h
  | succ fuel ih =>
      refine ⟨?_, ?_⟩
      · intro ts i stack term n j hstack h
        rw [parse_whole_expression] at h
        cases hp : peek_non_space ts i with
        | ok token i0 =>
            rw [hp] at h
            dsimp only at h
            cases hs : parse_single_expression ts i0 term with
            | ok next i1 =>
                rw [hs] at h
                have hnext := parse_single_expression_exprNode ts i0 term next i1 hs
                have hstack' : stackExpr
                    (stack.getD (Node.mk token.position (.List []))) = true := by
                  rcases hstack with rfl | ⟨s, rfl, hs'⟩
                  · simp [stackExpr]
                  · simpa using hs'
                exact ih.2 _ _ _ _ _ _ (stackExpr_push _ next hstack' hnext) h
            | err e => rw [hs] at h; simp at h
            | timeout => exact absurd hs (parse_single_expression_no_timeout ts i0 term)
        | err e => rw [hp] at h; simp at h
        | timeout => exact absurd hp (peek_non_space_no_timeout ts i)
      · intro ts i st term n j hst h
        rw [parse_whole_loop] at h
        cases hp : peek_non_space ts i with
        | ok token i0 =>
            rw [hp] at h
            dsimp only at h
            by_cases hterm : token.kind = term
            · rw [if_pos hterm] at h
              split at h
              · simp at h
              · split at h
                · rename_i top rest hpop
                  have heq : top = n ∧ i0 = j := by simpa using h
                  obtain ⟨rfl, -⟩ := heq
                  exact (stackExpr_pop st top rest hst hpop).1
                · simp at h
            · rw [if_neg hterm] at h
              cases hk : token.kind <;> rw [hk] at h
              · simp at h
              · simp at h
              · simp at h
              · simp at h
              · simp at h
              · simp at h
              · simp at h
              · simp at h
              · simp at h
              -- Add
              · dsimp only at h
                cases hnx : next_non_space ts i0 with
                | ok tok2 i1 =>
                    rw [hnx] at h
                    dsimp only at h
                    by_cases hempty : st.is_empty = true
                    · rw [if_pos hempty] at h
                      exact ih.2 _ _ _ _ _ _ hst h
                    · rw [if_neg hempty] at h
                      cases hres : parse_whole_expression fuel ts i1 (some st) term with
                      | ok rhs i2 =>
                          rw [hres] at h
                          dsimp only at h
                          have hrhs : exprNode rhs = true :=
                            ih.1 _ _ _ _ _ _ (Or.inr ⟨st, rfl, hst⟩) hres
                          cases hp2 : peek_non_space ts i2 with
                          | ok next_tok i3 =>
                              rw [hp2] at h
                              dsimp only at h
                              split at h
                              · exact ih.1 _ _ _ _ _ _
                                  (Or.inr ⟨st.push rhs, rfl,
                                    stackExpr_push st rhs hst hrhs⟩) h
                              · cases hpop : st.pop with
                                | some pr =>
                                    cases pr with
                                    | mk lhs rest =>
                                        rw [hpop] at h
                                        dsimp only at h
                                        obtain ⟨hl, hrest⟩ :=
                                          stackExpr_pop st lhs rest hst hpop
                                        exact ih.2 _ _ _ _ _ _
                                          (stackExpr_push rest _ hrest
                                            (exprNode_math lhs.position lhs rhs _
                                              hl hrhs)) h
                                | none => rw [hpop] at h; simp at h
                          | err e => rw [hp2] at h; simp at h
                          | timeout =>
                              exact absurd hp2 (peek_non_space_no_timeout ts i2)
                      | err e => rw [hres] at h; simp at h
                      | timeout => rw [hres] at h; simp at h
                | err e => rw [hnx] at h; simp at h
                | timeout => exact absurd hnx (next_non_space_no_timeout ts i0)
              -- Substract
              · dsimp only at h
                cases hnx : next_non_space ts i0 with
                | ok tok2 i1 =>
                    rw [hnx] at h
                    dsimp only at h
                    by_cases hempty : st.is_empty = true
                    · rw [if_pos hempty] at h
                      exact ih.2 _ _ _ _ _ _ hst h
                    · rw [if_neg hempty] at h
                      cases hres : parse_whole_expression fuel ts i1 (some st) term with
                      | ok rhs i2 =>
                          rw [hres] at h
                          dsimp only at h
                          have hrhs : exprNode rhs = true :=
                            ih.1 _ _ _ _ _ _ (Or.inr ⟨st, rfl, hst⟩) hres
                          cases hp2 : peek_non_space ts i2 with
                          | ok next_tok i3 =>
                              rw [hp2] at h
                              dsimp only at h
                              split at h
                              · exact ih.1 _ _ _ _ _ _
                                  (Or.inr ⟨st.push rhs, rfl,
                                    stackExpr_push st rhs hst hrhs⟩) h
                              · cases hpop : st.pop with
                                | some pr =>
                                    cases pr with
                                    | mk lhs rest =>
                                        rw [hpop] at h
                                        dsimp only at h
                                        obtain ⟨hl, hrest⟩ :=
                                          stackExpr_pop st lhs rest hst hpop
                                        exact ih.2 _ _ _ _ _ _
                                          (stackExpr_push rest _ hrest
                                            (exprNode_math lhs.position lhs rhs _
                                              hl hrhs)) h
                                | none => rw [hpop] at h; simp at h
                          | err e => rw [hp2] at h; simp at h
                          | timeout =>
                              exact absurd hp2 (peek_non_space_no_timeout ts i2)
                      | err e => rw [hres] at h; simp at h
                      | timeout => rw [hres] at h; simp at h
                | err e => rw [hnx] at h; simp at h
                | timeout => exact absurd hnx (next_non_space_no_timeout ts i0)
              -- Multiply
              · dsimp only at h
                cases hnx : next_non_space ts i0 with
                | ok tok2 i1 =>
                    rw [hnx] at h
                    dsimp only at h
                    by_cases hempty : st.is_empty = true
                    · rw [if_pos hempty] at h
                      simp at h
                    · rw [if_neg hempty] at h
                      cases hs : parse_single_expression ts i1 term with
                      | ok rhs i2 =>
                          rw [hs] at h
                          dsimp only at h
                          have hrhs :=
                            parse_single_expression_exprNode ts i1 term rhs i2 hs
                          cases hpop : st.pop with
                          | some pr =>
                              cases pr with
                              | mk lhs rest =>
                                  rw [hpop] at h
                                  dsimp only at h
                                  obtain ⟨hl, hrest⟩ :=
                                    stackExpr_pop st lhs rest hst hpop
                                  exact ih.2 _ _ _ _ _ _
                                    (stackExpr_push rest _ hrest
                                      (exprNode_math lhs.position lhs rhs _
                                        hl hrhs)) h
                          | none => rw [hpop] at h; simp at h
                      | err e => rw [hs] at h; simp at h
                      | timeout =>
                          exact absurd hs
                            (parse_single_expression_no_timeout ts i1 term)
                | err e => rw [hnx] at h; simp at h
                | timeout => exact absurd hnx (next_non_space_no_timeout ts i0)
              -- Divide
              · dsimp only at h
                cases hnx : next_non_space ts i0 with
                | ok tok2 i1 =>
                    rw [hnx] at h
                    dsimp only at h
                    by_cases hempty : st.is_empty = true
                    · rw [if_pos hempty] at h
                      simp at h
                    · rw [if_neg hempty] at h
                      cases hs : parse_single_expression ts i1 term with
                      | ok rhs i2 =>
                          rw [hs] at h
                          dsimp only at h
                          have hrhs :=
                            parse_single_expression_exprNode ts i1 term rhs i2 hs
                          cases hpop : st.pop with
                          | some pr =>
                              cases pr with
                              | mk lhs rest =>
                                  rw [hpop] at h
                                  dsimp only at h
                                  obtain ⟨hl, hrest⟩ :=
                                    stackExpr_pop st lhs rest hst hpop
                                  exact ih.2 _ _ _ _ _ _
                                    (stackExpr_push rest _ hrest
                                      (exprNode_math lhs.position lhs rhs _
                                        hl hrhs)) h
                          | none => rw [hpop] at h; simp at h
                      | err e => rw [hs] at h; simp at h
                      | timeout =>
                          exact absurd hs
                            (parse_single_expression_no_timeout ts i1 term)
                | err e => rw [hnx] at h; simp at h
                | timeout => exact absurd hnx (next_non_space_no_timeout ts i0)
              · simp at h
              · simp at h
        | err e => rw [hp] at h; simp at h
        | timeout => exact absurd hp (peek_non_space_no_timeout ts i)

/-- Appending a node to a list of reduced nodes keeps them all reduced. -/
theorem nodesReduced_append (cs : List Node) (c : Node)
    (hcs : nodesReduced cs = true) (hc : nodeReduced c = true) :
    nodesReduced (cs ++ [c]) = true := by
  induction cs with
  | nil => simpa [nodesReduced] using hc
  | cons x xs ihx =>
      simp only [nodesReduced, Bool.and_eq_true] at hcs ⊢
      exact ⟨hcs.1, ihx hcs.2⟩

/-- Pushing a reduced node onto a reduced node keeps it reduced. -/
theorem nodeReduced_push (root c : Node) (hroot : nodeReduced root = true)
    (hc : nodeReduced c = true) : nodeReduced (root.push c) = true := by
  cases root with
  | mk p s =>
      cases s <;> simp_all [Node.push, nodeReduced, specReduced]
      exact nodesReduced_append _ c (by simpa [nodeReduced, specReduced] using hroot) hc

/-- A parsed variable block is a reduced node: its payload is a single
reduced expression node. -/
theorem parse_variable_block_reduced (fuel : Nat) (ts : List Token) (i : Nat)
    (n : Node) (j : Nat) (h : parse_variable_block fuel ts i = .ok n j) :
    nodeReduced n = true := by
  rw [parse_variable_block] at h
  cases he : expect ts i .VariableStart with
  | ok token i1 =>
      rw [he] at h
      dsimp only at h
      cases hw : parse_whole_expression fuel ts i1 none .VariableEnd with
      | ok contained i2 =>
          rw [hw] at h
          dsimp only at h
          have hc : exprNode contained = true :=
            (whole_expression_exprNode fuel).1 ts i1 none .VariableEnd contained i2
              (Or.inl rfl) hw
          cases he2 : expect ts i2 .VariableEnd with
          | ok t2 i3 =>
              rw [he2] at h
              have heq : Node.mk token.position (.VariableBlock contained) = n
                  ∧ i3 = j := by simpa using h
              obtain ⟨rfl, -⟩ := heq
              simp only [exprNode, Bool.and_eq_true] at hc
              simp [nodeReduced, specReduced, hc.1, hc.2]
          | err e => rw [he2] at h; simp at h
          | timeout => exact absurd he2 (expect_no_timeout ts i2 .VariableEnd)
      | err e => rw [hw] at h; simp at h
      | timeout => rw [hw] at h; simp at h
  | err e => rw [he] at h; simp at h
  | timeout => exact absurd he (expect_no_timeout ts i .VariableStart)

/-- A parsed text run is a reduced node. -/
theorem parse_text_reduced (ts : List Token) (i : Nat) (n : Node) (j : Nat)
    (h : parse_text ts i = .ok n j) : nodeReduced n = true := by
  rw [parse_text] at h
  cases hn : next_token ts i with
  | ok t j0 =>
      rw [hn] at h
      have heq : Node.mk t.position (.Text t.value) = n ∧ j0 = j := by simpa using h
      obtain ⟨rfl, -⟩ := heq
      simp [nodeReduced, specReduced]
  | err e => rw [hn] at h; simp at h
  | timeout => rw [hn] at h; simp at h

/-- Every node produced by the top-level dispatch is reduced. -/
theorem parse_next_reduced (fuel : Nat) :
    ∀ ts i n j, parse_next fuel ts i = .ok (some n) j → nodeReduced n = true := by
  induction fuel with
  | zero =>
      intro ts i n j h
      rw [parse_next] at h
      simp at h
  | succ fuel ih =>
      intro ts i n j h
      rw [parse_next] at h
      cases hpk : peek ts i with
      | ok t i0 =>
          rw [hpk] at h
          dsimp only at h
          split at h
          · exact ih ts i n j h
          · cases hv : parse_variable_block fuel ts i with
            | ok nn jj =>
                rw [hv] at h
                have heq : some nn = some n ∧ jj = j := by simpa using h
                obtain ⟨hnn, -⟩ := heq
                have hnn' : nn = n := by simpa using hnn
                rw [← hnn']
                exact parse_variable_block_reduced fuel ts i nn jj hv
            | err e => rw [hv] at h; simp at h
            | timeout => rw [hv] at h; simp at h
          · cases hv : parse_text ts i with
            | ok nn jj =>
                rw [hv] at h
                have heq : some nn = some n ∧ jj = j := by simpa using h
                obtain ⟨hnn, -⟩ := heq
                have hnn' : nn = n := by simpa using hnn
                rw [← hnn']
                exact parse_text_reduced ts i nn jj hv
            | err e => rw [hv] at h; simp at h
            | timeout => rw [hv] at h; simp at h
          · simp at h
      | err e => rw [hpk] at h; simp at h
      | timeout => rw [hpk] at h; simp at h

/-- The top-level loop keeps the root reduced. -/
theorem parse_reduced (fuel : Nat) :
    ∀ ts i root n j, nodeReduced root = true → parse fuel ts i root = .ok n j →
      nodeReduced n = true := by
  induction fuel with
  | zero =>
      intro ts i root n j hroot h
      rw [parse] at h
      simp at h
  | succ fuel ih =>
      intro ts i root n j hroot h
      rw [parse] at h
      cases hn : parse_next fuel ts i with
      | ok onode j0 =>
          rw [hn] at h
          cases onode with
          | some node =>
              dsimp only at h
              exact ih ts j0 _ n j
                (nodeReduced_push root node hroot (parse_next_reduced fuel ts i node j0 hn)) h
          | none =>
              dsimp only at h
              have heq : root = n ∧ j0 = j := by simpa using h
              obtain ⟨rfl, -⟩ := heq
              exact hroot
      | err e => rw [hn] at h; simp at h
      | timeout => rw [hn] at h; simp at h

/-- C7: for every successfully parsed input, every VariableBlock node in
the returned root holds a single reduced expression payload of kind Math,
Int, Float, Bool or Identifier — never a List. -/
theorem claim_C7 (fuel : Nat) (ts : List Token) (root : Node) (j : Nat)
    (h : runParse fuel ts = .ok root j) : nodeReduced root = true :=
  parse_reduced fuel ts 0 (Node.mk 0 (.List [])) root j
    (by simp [nodeReduced, specReduced, nodesReduced]) h

/-- C7 witness: the parse of the spaceless block around `1+42` returns a
root that the reduced-payload checker accepts. -/
theorem claim_C7_witness :
    nodeReduced (Node.mk 0 (.List [Node.mk 0 (.VariableBlock
      (Node.mk 2 (.Math (Node.mk 2 (.Int 1)) (Node.mk 4 (.Int 42)) "+")))])) = true :=
  claim_C7 50 (basicToks (addTok 3)) _ 5
    (by simp [runParse, parse, parse_next, parse_variable_block, expect,
      parse_whole_expression, parse_whole_loop, parse_single_expression,
      parse_literal, parse_identifier, peek_non_space, next_non_space, peek,
      next_token, parseI32, Node.push, Node.pop, Node.is_empty, Node.position,
      basicToks, vsTok, veTok, eofTok, intTok, addTok,
      Token.precedence, TokenType.precedence])

/-! ## Termination of the top level (claim C8) -/

/-- The expression engine never moves the cursor backwards: a successful
run returns a cursor at or beyond the starting one. -/
theorem whole_expression_mono (fuel : Nat) :
    (∀ ts i stack term n j,
        parse_whole_expression fuel ts i stack term = .ok n j → i ≤ j)
      ∧ (∀ ts i st term n j,
          parse_whole_loop fuel ts i st term = .ok n j → i ≤ j) := by
  induction fuel with
  | zero =>
      refine ⟨?_, ?_⟩
      · intro ts i stack term n j h
        rw [parse_whole_expression] at h
        simp at h
      · intro ts i st term n j h
        rw [parse_whole_loop] at h
        simp at h
  | succ fuel ih =>
      refine ⟨?_, ?_⟩
      · intro ts i stack term n j h
        rw [parse_whole_expression] at h
        cases hp : peek_non_space ts i with
        | ok token i0 =>
            rw [hp] at h
            dsimp only at h
            obtain ⟨-, -, hi0, -⟩ := peek_non_space_spec ts token i0 i hp
            cases hs : parse_single_expression ts i0 term with
            | ok next i1 =>
                rw [hs] at h
                obtain ⟨h1, -⟩ := parse_single_expression_progress ts i0 term next i1 hs
                have := ih.2 _ _ _ _ _ _ h
                omega
            | err e => rw [hs] at h; simp at h
            | timeout => exact absurd hs (parse_single_expression_no_timeout ts i0 term)
        | err e => rw [hp] at h; simp at h
        | timeout => exact absurd hp (peek_non_space_no_timeout ts i)
      · intro ts i st term n j h
        rw [parse_whole_loop] at h
        cases hp : peek_non_space ts i with
        | ok token i0 =>
            rw [hp] at h
            dsimp only at h
            obtain ⟨-, -, hi0, -⟩ := peek_non_space_spec ts token i0 i hp
            by_cases hterm : token.kind = term
            · rw [if_pos hterm] at h
              split at h
              · simp at h
              · split at h
                · rename_i top rest hpop
                  have heq : top = n ∧ i0 = j := by simpa using h
                  obtain ⟨-, rfl⟩ := heq
                  omega
                · simp at h
            · rw [if_neg hterm] at h
              cases hk : token.kind <;> rw [hk] at h
              · simp at h
              · simp at h
              · simp at h
              · simp at h
              · simp at h
              · simp at h
              · simp at h
              · simp at h
              · simp at h
              · dsimp only at h
                cases hnx : next_non_space ts i0 with
                | ok tok2 i1 =>
                    rw [hnx] at h
                    dsimp only at h
                    obtain ⟨-, -, hi1, -⟩ := next_non_space_spec ts tok2 i1 i0 hnx
                    by_cases hempty : st.is_empty = true
                    · rw [if_pos hempty] at h
                      have := ih.2 _ _ _ _ _ _ h
                      omega
                    · rw [if_neg hempty] at h
                      cases hres : parse_whole_expression fuel ts i1 (some st) term with
                      | ok rhs i2 =>
                          rw [hres] at h
                          dsimp only at h
                          have hi2 := ih.1 _ _ _ _ _ _ hres
                          cases hp2 : peek_non_space ts i2 with
                          | ok next_tok i3 =>
                              rw [hp2] at h
                              dsimp only at h
                              obtain ⟨-, -, hi3, -⟩ :=
                                peek_non_space_spec ts next_tok i3 i2 hp2
                              split at h
                              · have := ih.1 _ _ _ _ _ _ h
                                omega
                              · cases hpop : st.pop with
                                | some pr =>
                                    cases pr with
                                    | mk lhs rest =>
                                        rw [hpop] at h
                                        dsimp only at h
                                        have := ih.2 _ _ _ _ _ _ h
                                        omega
                                | none => rw [hpop] at h; simp at h
                          | err e => rw [hp2] at h; simp at h
                          | timeout =>
                              exact absurd hp2 (peek_non_space_no_timeout ts i2)
                      | err e => rw [hres] at h; simp at h
                      | timeout => rw [hres] at h; simp at h
                | err e => rw [hnx] at h; simp at h
                | timeout => exact absurd hnx (next_non_space_no_timeout ts i0)
              · dsimp only at h
                cases hnx : next_non_space ts i0 with
                | ok tok2 i1 =>
                    rw [hnx] at h
                    dsimp only at h
                    obtain ⟨-, -, hi1, -⟩ := next_non_space_spec ts tok2 i1 i0 hnx
                    by_cases hempty : st.is_empty = true
                    · rw [if_pos hempty] at h
                      have := ih.2 _ _ _ _ _ _ h
                      omega
                    · rw [if_neg hempty] at h
                      cases hres : parse_whole_expression fuel ts i1 (some st) term with
                      | ok rhs i2 =>
                          rw [hres] at h
                          dsimp only at h
                          have hi2 := ih.1 _ _ _ _ _ _ hres
                          cases hp2 : peek_non_space ts i2 with
                          | ok next_tok i3 =>
                              rw [hp2] at h
                              dsimp only at h
                              obtain ⟨-, -, hi3, -⟩ :=
                                peek_non_space_spec ts next_tok i3 i2 hp2
                              split at h
                              · have := ih.1 _ _ _ _ _ _ h
                                omega
                              · cases hpop : st.pop with
                                | some pr =>
                                    cases pr with
                                    | mk lhs rest =>
                                        rw [hpop] at h
                                        dsimp only at h
                                        have := ih.2 _ _ _ _ _ _ h
                                        omega
                                | none => rw [hpop] at h; simp at h
                          | err e => rw [hp2] at h; simp at h
                          | timeout =>
                              exact absurd hp2 (peek_non_space_no_timeout ts i2)
                      | err e => rw [hres] at h; simp at h
                      | timeout => rw [hres] at h; simp at h
                | err e => rw [hnx] at h; simp at h
                | timeout => exact absurd hnx (next_non_space_no_timeout ts i0)
              · dsimp only at h
                cases hnx : next_non_space ts i0 with
                | ok tok2 i1 =>
                    rw [hnx] at h
                    dsimp only at h
                    obtain ⟨-, -, hi1, -⟩ := next_non_space_spec ts tok2 i1 i0 hnx
                    by_cases hempty : st.is_empty = true
                    · rw [if_pos hempty] at h
                      simp at h
                    · rw [if_neg hempty] at h
                      cases hs : parse_single_expression ts i1 term with
                      | ok rhs i2 =>
                          rw [hs] at h
                          dsimp only at h
                          obtain ⟨hi2, -⟩ :=
                            parse_single_expression_progress ts i1 term rhs i2 hs
                          cases hpop : st.pop with
                          | some pr =>
                              cases pr with
                              | mk lhs rest =>
                                  rw [hpop] at h
                                  dsimp only at h
                                  have := ih.2 _ _ _ _ _ _ h
                                  omega
                          | none => rw [hpop] at h; simp at h
                      | err e => rw [hs] at h; simp at h
                      | timeout =>
                          exact absurd hs
                            (parse_single_expression_no_timeout ts i1 term)
                | err e => rw [hnx] at h; simp at h
                | timeout => exact absurd hnx (next_non_space_no_timeout ts i0)
              · dsimp only at h
                cases hnx : next_non_space ts i0 with
                | ok tok2 i1 =>
                    rw [hnx] at h
                    dsimp only at h
                    obtain ⟨-, -, hi1, -⟩ := next_non_space_spec ts tok2 i1 i0 hnx
                    by_cases hempty : st.is_empty = true
                    · rw [if_pos hempty] at h
                      simp at h
                    · rw [if_neg hempty] at h
                      cases hs : parse_single_expression ts i1 term with
                      | ok rhs i2 =>
                          rw [hs] at h
                          dsimp only at h
                          obtain ⟨hi2, -⟩ :=
                            parse_single_expression_progress ts i1 term rhs i2 hs
                          cases hpop : st.pop with
                          | some pr =>
                              cases pr with
                              | mk lhs rest =>
                                  rw [hpop] at h
                                  dsimp only at h
                                  have := ih.2 _ _ _ _ _ _ h
                                  omega
                          | none => rw [hpop] at h; simp at h
                      | err e => rw [hs] at h; simp at h
                      | timeout =>
                          exact absurd hs
                            (parse_single_expression_no_timeout ts i1 term)
                | err e => rw [hnx] at h; simp at h
                | timeout => exact absurd hnx (next_non_space_no_timeout ts i0)
              · simp at h
              · simp at h
        | err e => rw [hp] at h; simp at h
        | timeout => exact absurd hp (peek_non_space_no_timeout ts i)

/-- With enough fuel relative to the remaining tokens, the expression
engine never times out: every loop iteration and recursive call strictly
advances the cursor, which is bounded by the token count. -/
theorem whole_expression_no_timeout (fuel : Nat) :
    (∀ ts i stack term, i ≤ ts.length → ts.length + 2 ≤ fuel + i →
        parse_whole_expression fuel ts i stack term ≠ .timeout)
      ∧ (∀ ts i st term, i ≤ ts.length → ts.length + 2 ≤ fuel + i →
          parse_whole_loop fuel ts i st term ≠ .timeout) := by
  induction fuel with
  | zero =>
      refine ⟨?_, ?_⟩ <;> (intro ts i _ _ hle hbound; omega)
  | succ fuel ih =>
      refine ⟨?_, ?_⟩
      · intro ts i stack term hle hbound
        rw [parse_whole_expression]
        cases hp : peek_non_space ts i with
        | ok token i0 =>
            dsimp only
            obtain ⟨-, -, hi0, -⟩ := peek_non_space_spec ts token i0 i hp
            cases hs : parse_single_expression ts i0 term with
            | ok next i1 =>
                dsimp only
                obtain ⟨hi1a, hi1b⟩ :=
                  parse_single_expression_progress ts i0 term next i1 hs
                exact ih.2 ts i1 _ term (by omega) (by omega)
            | err e => simp
            | timeout => exact absurd hs (parse_single_expression_no_timeout ts i0 term)
        | err e => simp
        | timeout => exact absurd hp (peek_non_space_no_timeout ts i)
      · intro ts i st term hle hbound
        rw [parse_whole_loop]
        cases hp : peek_non_space ts i with
        | ok token i0 =>
            dsimp only
            obtain ⟨-, -, hi0, -⟩ := peek_non_space_spec ts token i0 i hp
            by_cases hterm : token.kind = term
            · rw [if_pos hterm]
              split
              · simp
              · split
                · simp
                · simp
            · rw [if_neg hterm]
              cases hk : token.kind
              · simp
              · simp
              · simp
              · simp
              · simp
              · simp
              · simp
              · simp
              · simp
              · dsimp only
                cases hnx : next_non_space ts i0 with
                | ok tok2 i1 =>
                    dsimp only
                    obtain ⟨-, -, hi1a, hi1b⟩ := next_non_space_spec ts tok2 i1 i0 hnx
                    by_cases hempty : st.is_empty = true
                    · rw [if_pos hempty]
                      exact ih.2 ts i1 st term (by omega) (by omega)
                    · rw [if_neg hempty]
                      cases hres : parse_whole_expression fuel ts i1 (some st) term with
                      | ok rhs i2 =>
                          dsimp only
                          have hi2 := (whole_expression_mono fuel).1 _ _ _ _ _ _ hres
                          cases hp2 : peek_non_space ts i2 with
                          | ok next_tok i3 =>
                              dsimp only
                              obtain ⟨-, h2some, hi3, -⟩ :=
                                peek_non_space_spec ts next_tok i3 i2 hp2
                              have hi3lt : i3 < ts.length :=
                                (List.get?_eq_some.mp h2some).1
                              split
                              · exact ih.1 ts i3 _ term (by omega) (by omega)
                              · cases hpop : st.pop with
                                | some pr =>
                                    cases pr with
                                    | mk lhs rest =>
                                        dsimp only
                                        exact ih.2 ts i3 _ term (by omega) (by omega)
                                | none => simp
                          | err e => simp
                          | timeout => exact absurd hp2 (peek_non_space_no_timeout ts i2)
                      | err e => simp
                      | timeout =>
                          exact absurd hres
                            (ih.1 ts i1 (some st) term (by omega) (by omega))
                | err e => simp
                | timeout => exact absurd hnx (next_non_space_no_timeout ts i0)
              · dsimp only
                cases hnx : next_non_space ts i0 with
                | ok tok2 i1 =>
                    dsimp only
                    obtain ⟨-, -, hi1a, hi1b⟩ := next_non_space_spec ts tok2 i1 i0 hnx
                    by_cases hempty : st.is_empty = true
                    · rw [if_pos hempty]
                      exact ih.2 ts i1 st term (by omega) (by omega)
                    · rw [if_neg hempty]
                      cases hres : parse_whole_expression fuel ts i1 (some st) term with
                      | ok rhs i2 =>
                          dsimp only
                          have hi2 := (whole_expression_mono fuel).1 _ _ _ _ _ _ hres
                          cases hp2 : peek_non_space ts i2 with
                          | ok next_tok i3 =>
                              dsimp only
                              obtain ⟨-, h2some, hi3, -⟩ :=
                                peek_non_space_spec ts next_tok i3 i2 hp2
                              have hi3lt : i3 < ts.length :=
                                (List.get?_eq_some.mp h2some).1
                              split
                              · exact ih.1 ts i3 _ term (by omega) (by omega)
                              · cases hpop : st.pop with
                                | some pr =>
                                    cases pr with
                                    | mk lhs rest =>
                                        dsimp only
                                        exact ih.2 ts i3 _ term (by omega) (by omega)
                                | none => simp
                          | err e => simp
                          | timeout => exact absurd hp2 (peek_non_space_no_timeout ts i2)
                      | err e => simp
                      | timeout =>
                          exact absurd hres
                            (ih.1 ts i1 (some st) term (by omega) (by omega))
                | err e => simp
                | timeout => exact absurd hnx (next_non_space_no_timeout ts i0)
              · dsimp only
                cases hnx : next_non_space ts i0 with
                | ok tok2 i1 =>
                    dsimp only
                    obtain ⟨-, -, hi1a, hi1b⟩ := next_non_space_spec ts tok2 i1 i0 hnx
                    by_cases hempty : st.is_empty = true
                    · rw [if_pos hempty]; simp
                    · rw [if_neg hempty]
                      cases hs : parse_single_expression ts i1 term with
                      | ok rhs i2 =>
                          dsimp only
                          obtain ⟨hi2a, hi2b⟩ :=
                            parse_single_expression_progress ts i1 term rhs i2 hs
                          cases hpop : st.pop with
                          | some pr =>
                              cases pr with
                              | mk lhs rest =>
                                  dsimp only
                                  exact ih.2 ts i2 _ term (by omega) (by omega)
                          | none => simp
                      | err e => simp
                      | timeout =>
                          exact absurd hs
                            (parse_single_expression_no_timeout ts i1 term)
                | err e => simp
                | timeout => exact absurd hnx (next_non_space_no_timeout ts i0)
              · dsimp only
                cases hnx : next_non_space ts i0 with
                | ok tok2 i1 =>
                    dsimp only
                    obtain ⟨-, -, hi1a, hi1b⟩ := next_non_space_spec ts tok2 i1 i0 hnx
                    by_cases hempty : st.is_empty = true
                    · rw [if_pos hempty]; simp
                    · rw [if_neg hempty]
                      cases hs : parse_single_expression ts i1 term with
                      | ok rhs i2 =>
                          dsimp only
                          obtain ⟨hi2a, hi2b⟩ :=
                            parse_single_expression_progress ts i1 term rhs i2 hs
                          cases hpop : st.pop with
                          | some pr =>
                              cases pr with
                              | mk lhs rest =>
                                  dsimp only
                                  exact ih.2 ts i2 _ term (by omega) (by omega)
                          | none => simp
                      | err e => simp
                      | timeout =>
                          exact absurd hs
                            (parse_single_expression_no_timeout ts i1 term)
                | err e => simp
                | timeout => exact absurd hnx (next_non_space_no_timeout ts i0)
              · simp
              · simp
        | err e => simp
        | timeout => exact absurd hp (peek_non_space_no_timeout ts i)

/-- A successful `parse_text` consumes exactly the current token. -/
theorem parse_text_progress (ts : List Token) (i : Nat) (n : Node) (j : Nat)
    (h : parse_text ts i = .ok n j) : i < j ∧ j ≤ ts.length := by
  rw [parse_text, next_token] at h
  cases hg : ts.get? i with
  | some t =>
      rw [hg] at h
      have heq : Node.mk t.position (.Text t.value) = n ∧ i + 1 = j := by
        simpa using h
      have hlt := (List.get?_eq_some.mp hg).1
      omega
  | none => rw [hg] at h; simp at h

/-- A successful expression parse ends strictly inside the token list: the
cursor rests on the terminator token. -/
theorem whole_expression_lt_length (fuel : Nat) (ts : List Token) (i : Nat)
    (stack : Option Node) (term : TokenType) (n : Node) (j : Nat)
    (h : parse_whole_expression fuel ts i stack term = .ok n j) :
    j < ts.length := by
  obtain ⟨t, hpt, -⟩ :=
    (whole_expression_stops_at_terminator fuel).1 ts i stack term n j h
  exact peek_non_space_lt_length ts t j j hpt

/-- A successful `parse_variable_block` strictly advances the cursor and
stays within bounds. -/
theorem parse_variable_block_progress (fuel : Nat) (ts : List Token) (i : Nat)
    (n : Node) (j : Nat) (h : parse_variable_block fuel ts i = .ok n j) :
    i < j ∧ j ≤ ts.length := by
  rw [parse_variable_block] at h
  cases he : expect ts i .VariableStart with
  | ok token i1 =>
      rw [he] at h
      dsimp only at h
      obtain ⟨hi1a, -⟩ := expect_progress ts i .VariableStart token i1 he
      cases hw : parse_whole_expression fuel ts i1 none .VariableEnd with
      | ok contained i2 =>
          rw [hw] at h
          dsimp only at h
          have hi2 := (whole_expression_mono fuel).1 _ _ _ _ _ _ hw
          cases he2 : expect ts i2 .VariableEnd with
          | ok t2 i3 =>
              rw [he2] at h
              obtain ⟨hi3a, hi3b⟩ := expect_progress ts i2 .VariableEnd t2 i3 he2
              have heq : Node.mk token.position (.VariableBlock contained) = n
                  ∧ i3 = j := by simpa using h
              obtain ⟨-, rfl⟩ := heq
              omega
          | err e => rw [he2] at h; simp at h
          | timeout => exact absurd he2 (expect_no_timeout ts i2 .VariableEnd)
      | err e => rw [hw] at h; simp at h
      | timeout => rw [hw] at h; simp at h
  | err e => rw [he] at h; simp at h
  | timeout => exact absurd he (expect_no_timeout ts i .VariableStart)

/-- With enough fuel, `parse_variable_block` never times out. -/
theorem parse_variable_block_no_timeout (fuel : Nat) (ts : List Token) (i : Nat)
    (hle : i ≤ ts.length) (hbound : ts.length + 3 ≤ fuel + i) :
    parse_variable_block fuel ts i ≠ .timeout := by
  rw [parse_variable_block]
  cases he : expect ts i .VariableStart with
  | ok token i1 =>
      dsimp only
      obtain ⟨hi1a, hi1b⟩ := expect_progress ts i .VariableStart token i1 he
      cases hw : parse_whole_expression fuel ts i1 none .VariableEnd with
      | ok contained i2 =>
          dsimp only
          cases he2 : expect ts i2 .VariableEnd with
          | ok t2 i3 => simp
          | err e => simp
          | timeout => exact absurd he2 (expect_no_timeout ts i2 .VariableEnd)
      | err e => simp
      | timeout =>
          exact absurd hw
            ((whole_expression_no_timeout fuel).1 ts i1 none .VariableEnd
              (by omega) (by omega))
  | err e => simp
  | timeout => exact absurd he (expect_no_timeout ts i .VariableStart)

/-- A successful top-level dispatch that yields a node strictly advances
the cursor and stays within bounds. -/
theorem parse_next_progress (fuel : Nat) :
    ∀ ts i n j, parse_next fuel ts i = .ok (some n) j → i < j ∧ j ≤ ts.length := by
  induction fuel with
  | zero =>
      intro ts i n j h
      rw [parse_next] at h
      simp at h
  | succ fuel ih =>
      intro ts i n j h
      rw [parse_next] at h
      cases hpk : peek ts i with
      | ok t i0 =>
          rw [hpk] at h
          dsimp only at h
          split at h
          · exact ih ts i n j h
          · cases hv : parse_variable_block fuel ts i with
            | ok nn jj =>
                rw [hv] at h
                have heq : some nn = some n ∧ jj = j := by simpa using h
                obtain ⟨-, rfl⟩ := heq
                exact parse_variable_block_progress fuel ts i nn jj hv
            | err e => rw [hv] at h; simp at h
            | timeout => rw [hv] at h; simp at h
          · cases hv : parse_text ts i with
            | ok nn jj =>
                rw [hv] at h
                have heq : some nn = some n ∧ jj = j := by simpa using h
                obtain ⟨-, rfl⟩ := heq
                exact parse_text_progress ts i nn jj hv
            | err e => rw [hv] at h; simp at h
            | timeout => rw [hv] at h; simp at h
          · simp at h
      | err e => rw [hpk] at h; simp at h
      | timeout => rw [hpk] at h; simp at h

/-- With enough fuel, the top-level dispatch never times out on a stream
free of TagStart tokens. -/
theorem parse_next_no_timeout (fuel : Nat) (ts : List Token) (i : Nat)
    (hno : ∀ t ∈ ts, t.kind ≠ .TagStart) (hle : i ≤ ts.length)
    (hbound : ts.length + 4 ≤ fuel + i) :
    parse_next fuel ts i ≠ .timeout := by
  cases fuel with
  | zero => omega
  | succ fuel =>
      rw [parse_next]
      cases hpk : peek ts i with
      | ok t i0 =>
          dsimp only
          have hmem : t ∈ ts := by
            rw [peek] at hpk
            cases hg : ts.get? i with
            | some t' =>
                rw [hg] at hpk
                have heq : t' = t ∧ i = i0 := by simpa using hpk
                obtain ⟨rfl, -⟩ := heq
                exact List.get?_mem hg
            | none => rw [hg] at hpk; simp at hpk
          split
          · rename_i hk
            exact absurd hk (hno t hmem)
          · cases hv : parse_variable_block fuel ts i with
            | ok nn jj => simp
            | err e => simp
            | timeout =>
                exact absurd hv
                  (parse_variable_block_no_timeout fuel ts i hle (by omega))
          · cases hv : parse_text ts i with
            | ok nn jj => simp
            | err e => simp
            | timeout =>
                exfalso
                rw [parse_text, next_token] at hv
                revert hv
                cases ts.get? i <;> simp
          · simp
      | err e => simp
      | timeout =>
          exfalso
          rw [peek] at hpk
          revert hpk
          cases ts.get? i <;> simp

/-- With enough fuel, the top-level loop never times out on a stream free
of TagStart tokens: every iteration that continues consumed at least one
token. -/
theorem parse_no_timeout (fuel : Nat) :
    ∀ ts i root, (∀ t ∈ ts, t.kind ≠ .TagStart) → i ≤ ts.length →
      2 * ts.length + 6 ≤ fuel + 2 * i → parse fuel ts i root ≠ .timeout := by
  induction fuel with
  | zero =>
      intro ts i root hno hle hbound
      omega
  | succ fuel ih =>
      intro ts i root hno hle hbound
      rw [parse]
      cases hn : parse_next fuel ts i with
      | ok onode j0 =>
          cases onode with
          | some node =>
              dsimp only
              obtain ⟨hj1, hj2⟩ := parse_next_progress fuel ts i node j0 hn
              exact ih ts j0 _ hno (by omega) (by omega)
          | none => simp
      | err e => simp
      | timeout =>
          exact absurd hn (parse_next_no_timeout fuel ts i hno hle (by omega))

/-- At a TagStart token the top-level dispatch spins without advancing:
it exhausts any amount of fuel. -/
theorem parse_next_tagstart (fuel : Nat) :
    ∀ ts i t, ts.get? i = some t → t.kind = .TagStart →
      parse_next fuel ts i = .timeout := by
  induction fuel with
  | zero =>
      intro ts i t hsome hkind
      rw [parse_next]
  | succ fuel ih =>
      intro ts i t hsome hkind
      rw [parse_next, peek, hsome]
      dsimp only
      rw [hkind]
      exact ih ts i t hsome hkind

/-- C8: the top-level parse terminates (does not exhaust arbitrarily large
fuel) on every finite token stream without TagStart tokens; but when the
current top-level token is TagStart, the dispatch performs a no-op without
advancing and exhausts every amount of fuel, and so does the loop above
it: the parser spins forever. -/
theorem claim_C8 :
    (∀ ts : List Token, (∀ t ∈ ts, t.kind ≠ .TagStart) →
        ∃ fuel, runParse fuel ts ≠ .timeout)
      ∧ (∀ (fuel : Nat) (ts : List Token) (i : Nat) (t : Token) (root : Node),
          ts.get? i = some t → t.kind = .TagStart →
          parse_next fuel ts i = .timeout
            ∧ parse (fuel + 1) ts i root = .timeout) := by
  constructor
  · intro ts hno
    refine ⟨2 * ts.length + 6, ?_⟩
    exact parse_no_timeout (2 * ts.length + 6) ts 0 (Node.mk 0 (.List []))
      hno (Nat.zero_le _) (by omega)
  · intro fuel ts i t root hsome hkind
    have hnext := parse_next_tagstart fuel ts i t hsome hkind
    refine ⟨hnext, ?_⟩
    rw [parse, hnext]

/-- C8 witness: the one-token EOF stream parses within some fuel, while a
stream whose current token is TagStart exhausts fuel 5 in the dispatch and
fuel 6 in the loop above it. -/
theorem claim_C8_witness :
    (∃ fuel, runParse fuel [eofTok 0] ≠ .timeout)
      ∧ parse_next 5 [⟨.TagStart, "", 0⟩] 0 = .timeout
      ∧ parse (5 + 1) [⟨.TagStart, "", 0⟩] 0 (Node.mk 0 (.List [])) = .timeout :=
  ⟨claim_C8.1 [eofTok 0] (by decide),
   (claim_C8.2 5 [⟨.TagStart, "", 0⟩] 0 ⟨.TagStart, "", 0⟩ (Node.mk 0 (.List []))
      rfl rfl).1,
   (claim_C8.2 5 [⟨.TagStart, "", 0⟩] 0 ⟨.TagStart, "", 0⟩ (Node.mk 0 (.List []))
      rfl rfl).2⟩

/-! ## Single-tier chains (claim C2) -/

/-- A chain's token stream is its first operand followed by the suffix. -/
theorem chainToks_cons (b : Token) (rest : List (Token × Token)) :
    chainToks b rest = b :: chainSuffix rest := by
  cases rest with
  | nil => rfl
  | cons hd tl => cases hd; rfl

/-- The suffix of a chain holds two tokens per operator/operand pair. -/
theorem chainSuffix_length (rest : List (Token × Token)) :
    (chainSuffix rest).length = 2 * rest.length := by
  induction rest with
  | nil => rfl
  | cons hd tl ih =>
      cases hd with
      | mk op b =>
          rw [chainSuffix, chainToks_cons]
          simp only [List.length_cons, ih]
          omega

/-- `rightTree` is `addTreeFrom` seeded with the first operand's leaf. -/
theorem rightTree_eq (first : Token) (rest : List (Token × Token)) :
    rightTree first rest =
      addTreeFrom (Node.mk first.position (.Identifier first.value)) rest := by
  induction rest generalizing first with
  | nil => rfl
  | cons hd tl ih =>
      cases hd with
      | mk op b =>
          simp only [rightTree, addTreeFrom, Node.position, ih b]

/-- `next_non_space` at a non-space token consumes exactly it. -/
theorem next_non_space_at (ts : List Token) (i : Nat) (t : Token)
    (hsome : ts.get? i = some t) (hsp : t.kind ≠ .Space) :
    next_non_space ts i = .ok t (i + 1) := by
  rw [next_non_space, hsome]
  simp [hsp]

/-- A pushed working stack is never empty. -/
theorem is_empty_push (pos : Nat) (cs : List Node) (x : Node) :
    ((Node.mk pos (.List cs)).push x).is_empty = false := by
  simp [Node.push, Node.is_empty]

/-- Popping a pushed working stack returns the pushed node and the
original stack. -/
theorem pop_push (pos : Nat) (cs : List Node) (x : Node) :
    ((Node.mk pos (.List cs)).push x).pop = some (x, Node.mk pos (.List cs)) := by
  simp [Node.push, Node.pop]

/-- `parse_single_expression` at an identifier token produces its leaf and
consumes exactly that token. -/
theorem parse_single_ident (ts : List Token) (i : Nat) (b : Token)
    (term : TokenType) (hsome : ts.get? i = some b)
    (hb : b.kind = .Identifier) (hne : b.kind ≠ term) :
    parse_single_expression ts i term =
      .ok (Node.mk b.position (.Identifier b.value)) (i + 1) := by
  have hsp : b.kind ≠ .Space := by rw [hb]; simp
  rw [parse_single_expression, peek_non_space_at ts i b hsome hsp]
  dsimp only
  rw [if_neg hne, hb]
  dsimp only
  rw [parse_identifier, next_non_space_at ts i b hsome hsp]

/-- The reduction loop on an additive identifier chain: with the left
operand already on the stack, the remaining operator/operand suffix before
the terminator reduces to the right-associated tree grown from that
operand, and the cursor comes to rest on the terminator. -/
theorem add_chain_loop (rest : List (Token × Token)) :
    ∀ (ts tail : List Token) (vetok : Token) (i pos : Nat) (cs : List Node)
      (x : Node) (fuel : Nat),
      vetok.kind = .VariableEnd →
      (∀ p ∈ rest, (p.1.kind = .Add ∨ p.1.kind = .Substract)
        ∧ p.2.kind = .Identifier) →
      ts.drop i = chainSuffix rest ++ vetok :: tail →
      2 * rest.length + 1 ≤ fuel →
      parse_whole_loop fuel ts i ((Node.mk pos (.List cs)).push x) .VariableEnd =
        .ok (addTreeFrom x rest) (i + 2 * rest.length) := by
  induction rest with
  | nil =>
      intro ts tail vetok i pos cs x fuel hvk hops hdrop hfuel
      have hget : ts.get? i = some vetok := by
        have h0 := List.get?_drop ts i 0
        rw [hdrop] at h0
        simpa using h0.symm
      have hsp : vetok.kind ≠ .Space := by rw [hvk]; simp
      cases fuel with
      | zero => omega
      | succ f1 =>
          rw [parse_whole_loop, peek_non_space_at ts i vetok hget hsp]
          dsimp only
          rw [if_pos hvk,
            if_neg (by simp [is_empty_push] :
              ¬(((Node.mk pos (.List cs)).push x).is_empty = true)),
            pop_push]
          simp [addTreeFrom]
  | cons hd tl ih =>
      obtain ⟨op, b⟩ := hd
      intro ts tail vetok i pos cs x fuel hvk hops hdrop hfuel
      obtain ⟨hop, hb⟩ := hops (op, b) (List.mem_cons_self _ _)
      have hops' : ∀ p ∈ tl, (p.1.kind = .Add ∨ p.1.kind = .Substract)
          ∧ p.2.kind = .Identifier := fun p hp => hops p (List.mem_cons_of_mem _ hp)
      have hdrop' : ts.drop i = op :: b :: (chainSuffix tl ++ vetok :: tail) := by
        rw [hdrop, chainSuffix, chainToks_cons]
        simp
      have hgetI : ts.get? i = some op := by
        have h0 := List.get?_drop ts i 0
        rw [hdrop'] at h0
        simpa using h0.symm
      have hgetI1 : ts.get? (i + 1) = some b := by
        have h0 := List.get?_drop ts i 1
        rw [hdrop'] at h0
        simpa using h0.symm
      have hdrop2 : ts.drop (i + 2) = chainSuffix tl ++ vetok :: tail := by
        have h0 := List.drop_drop 2 i ts
        rw [hdrop'] at h0
        rw [Nat.add_comm i 2] at h0 ⊢
        rw [← h0]
        simp
      have hopsp : op.kind ≠ .Space := by rcases hop with h | h <;> rw [h] <;> simp
      have hopve : ¬ (op.kind = .VariableEnd) := by
        rcases hop with h | h <;> rw [h] <;> simp
      have hbsp : b.kind ≠ .Space := by rw [hb]; simp
      have hsp : vetok.kind ≠ .Space := by rw [hvk]; simp
      simp only [List.length_cons] at hfuel
      cases fuel with
      | zero => omega
      | succ f1 =>
          cases f1 with
          | zero => omega
          | succ f2 =>
              have hrec : parse_whole_expression (f2 + 1) ts (i + 1)
                  (some ((Node.mk pos (.List cs)).push x)) .VariableEnd =
                    .ok (addTreeFrom (Node.mk b.position (.Identifier b.value)) tl)
                      (i + 2 + 2 * tl.length) := by
                rw [parse_whole_expression,
                  peek_non_space_at ts (i + 1) b hgetI1 hbsp]
                dsimp only
                rw [parse_single_ident ts (i + 1) b .VariableEnd hgetI1 hb
                  (by rw [hb]; simp)]
                dsimp only
                exact ih ts tail vetok (i + 1 + 1) pos (cs ++ [x])
                  (Node.mk b.position (.Identifier b.value)) f2 hvk hops'
                  hdrop2 (by omega)
              have hgetVE : ts.get? (i + 2 + 2 * tl.length) = some vetok := by
                have h0 := List.get?_drop ts (i + 2) (2 * tl.length)
                rw [hdrop2] at h0
                rw [List.get?_append_right (by rw [chainSuffix_length])] at h0
                rw [chainSuffix_length] at h0
                simpa [Nat.add_assoc] using h0.symm
              have hnc : ¬ (Token.precedence vetok > Token.precedence op) := by
                rcases hop with h | h <;>
                  simp [Token.precedence, hvk, h, TokenType.precedence]
              rcases hop with hopk | hopk <;>
                (rw [parse_whole_loop, peek_non_space_at ts i op hgetI hopsp]
                 dsimp only
                 rw [if_neg hopve, hopk]
                 dsimp only
                 rw [next_non_space_at ts i op hgetI hopsp]
                 dsimp only
                 rw [if_neg (by simp [is_empty_push] :
                   ¬(((Node.mk pos (.List cs)).push x).is_empty = true))]
                 rw [hrec]
                 dsimp only
                 rw [peek_non_space_at ts (i + 2 + 2 * tl.length) vetok hgetVE hsp]
                 dsimp only
                 rw [if_neg hnc, pop_push]
                 dsimp only
                 rw [parse_whole_loop,
                   peek_non_space_at ts (i + 2 + 2 * tl.length) vetok hgetVE hsp]
                 dsimp only
                 rw [if_pos hvk]
                 simp only [is_empty_push, pop_push]
                 rw [if_neg (by simp : ¬((false : Bool) = true))]
                 congr 1
                 · simp [addTreeFrom, addOpStr, show op.kind = _ from hopk]
                 · simp only [List.length_cons]
                   omega)

/-- The reduction loop on a multiplicative identifier chain: with the left
operand already on the stack, each operator immediately combines the
accumulated tree with one operand, producing the left-associated tree. -/
theorem mul_chain_loop (rest : List (Token × Token)) :
    ∀ (ts tail : List Token) (vetok : Token) (i pos : Nat) (cs : List Node)
      (x : Node) (fuel : Nat),
      vetok.kind = .VariableEnd →
      (∀ p ∈ rest, (p.1.kind = .Multiply ∨ p.1.kind = .Divide)
        ∧ p.2.kind = .Identifier) →
      ts.drop i = chainSuffix rest ++ vetok :: tail →
      rest.length + 1 ≤ fuel →
      parse_whole_loop fuel ts i ((Node.mk pos (.List cs)).push x) .VariableEnd =
        .ok (leftTree x rest) (i + 2 * rest.length) := by
  induction rest with
  | nil =>
      intro ts tail vetok i pos cs x fuel hvk hops hdrop hfuel
      have hget : ts.get? i = some vetok := by
        have h0 := List.get?_drop ts i 0
        rw [hdrop] at h0
        simpa using h0.symm
      have hsp : vetok.kind ≠ .Space := by rw [hvk]; simp
      cases fuel with
      | zero => omega
      | succ f1 =>
          rw [parse_whole_loop, peek_non_space_at ts i vetok hget hsp]
          dsimp only
          rw [if_pos hvk,
            if_neg (by simp [is_empty_push] :
              ¬(((Node.mk pos (.List cs)).push x).is_empty = true)),
            pop_push]
          simp [leftTree]
  | cons hd tl ih =>
      obtain ⟨op, b⟩ := hd
      intro ts tail vetok i pos cs x fuel hvk hops hdrop hfuel
      obtain ⟨hop, hb⟩ := hops (op, b) (List.mem_cons_self _ _)
      have hops' : ∀ p ∈ tl, (p.1.kind = .Multiply ∨ p.1.kind = .Divide)
          ∧ p.2.kind = .Identifier := fun p hp => hops p (List.mem_cons_of_mem _ hp)
      have hdrop' : ts.drop i = op :: b :: (chainSuffix tl ++ vetok :: tail) := by
        rw [hdrop, chainSuffix, chainToks_cons]
        simp
      have hgetI : ts.get? i = some op := by
        have h0 := List.get?_drop ts i 0
        rw [hdrop'] at h0
        simpa using h0.symm
      have hgetI1 : ts.get? (i + 1) = some b := by
        have h0 := List.get?_drop ts i 1
        rw [hdrop'] at h0
        simpa using h0.symm
      have hdrop2 : ts.drop (i + 2) = chainSuffix tl ++ vetok :: tail := by
        have h0 := List.drop_drop 2 i ts
        rw [hdrop'] at h0
        rw [Nat.add_comm i 2] at h0 ⊢
        rw [← h0]
        simp
      have hopsp : op.kind ≠ .Space := by rcases hop with h | h <;> rw [h] <;> simp
      have hopve : ¬ (op.kind = .VariableEnd) := by
        rcases hop with h | h <;> rw [h] <;> simp
      simp only [List.length_cons] at hfuel
      cases fuel with
      | zero => omega
      | succ f1 =>
          rcases hop with hopk | hopk <;>
            (rw [parse_whole_loop, peek_non_space_at ts i op hgetI hopsp]
             dsimp only
             rw [if_neg hopve, hopk]
             dsimp only
             rw [next_non_space_at ts i op hgetI hopsp]
             dsimp only
             rw [if_neg (by simp [is_empty_push] :
               ¬(((Node.mk pos (.List cs)).push x).is_empty = true))]
             rw [parse_single_ident ts (i + 1) b .VariableEnd hgetI1 hb
               (by rw [hb]; simp)]
             dsimp only
             rw [pop_push]
             dsimp only
             rw [ih ts tail vetok (i + 1 + 1) pos cs _ f1 hvk hops' hdrop2
               (by omega)]
             congr 1
             · simp [leftTree, mulOpStr, Node.position,
                 show op.kind = _ from hopk]
             · simp only [List.length_cons]
               omega)

/-- `chainToks` holds one token for the first operand plus two per pair. -/
theorem chainToks_length (first : Token) (rest : List (Token × Token)) :
    (chainToks first rest).length = 1 + 2 * rest.length := by
  rw [chainToks_cons]
  simp [chainSuffix_length]
  omega

/-- A whole-expression parse of an additive identifier chain produces the
right-associated tree and stops on the terminator. -/
theorem add_chain_whole (first : Token) (rest : List (Token × Token))
    (ts tail : List Token) (vetok : Token) (i fuel : Nat)
    (hfirst : first.kind = .Identifier) (hvk : vetok.kind = .VariableEnd)
    (hops : ∀ p ∈ rest, (p.1.kind = .Add ∨ p.1.kind = .Substract)
      ∧ p.2.kind = .Identifier)
    (hdrop : ts.drop i = chainToks first rest ++ vetok :: tail)
    (hfuel : 2 * rest.length + 2 ≤ fuel) :
    parse_whole_expression fuel ts i none .VariableEnd =
      .ok (rightTree first rest) (i + 1 + 2 * rest.length) := by
  have hdrop' : ts.drop i = first :: (chainSuffix rest ++ vetok :: tail) := by
    rw [hdrop, chainToks_cons]
    simp
  have hget : ts.get? i = some first := by
    have h0 := List.get?_drop ts i 0
    rw [hdrop'] at h0
    simpa using h0.symm
  have hsp : first.kind ≠ .Space := by rw [hfirst]; simp
  have hdrop1 : ts.drop (i + 1) = chainSuffix rest ++ vetok :: tail := by
    have h0 := List.drop_drop 1 i ts
    rw [hdrop'] at h0
    rw [Nat.add_comm i 1] at h0 ⊢
    rw [← h0]
    simp
  cases fuel with
  | zero => omega
  | succ f1 =>
      rw [parse_whole_expression, peek_non_space_at ts i first hget hsp]
      dsimp only
      rw [parse_single_ident ts i first .VariableEnd hget hfirst
        (by rw [hfirst]; simp)]
      dsimp only
      rw [rightTree_eq]
      exact add_chain_loop rest ts tail vetok (i + 1) first.position []
        (Node.mk first.position (.Identifier first.value)) f1 hvk hops hdrop1
        (by omega)

/-- A whole-expression parse of a multiplicative identifier chain produces
the left-associated tree and stops on the terminator. -/
theorem mul_chain_whole (first : Token) (rest : List (Token × Token))
    (ts tail : List Token) (vetok : Token) (i fuel : Nat)
    (hfirst : first.kind = .Identifier) (hvk : vetok.kind = .VariableEnd)
    (hops : ∀ p ∈ rest, (p.1.kind = .Multiply ∨ p.1.kind = .Divide)
      ∧ p.2.kind = .Identifier)
    (hdrop : ts.drop i = chainToks first rest ++ vetok :: tail)
    (hfuel : rest.length + 2 ≤ fuel) :
    parse_whole_expression fuel ts i none .VariableEnd =
      .ok (leftTree (Node.mk first.position (.Identifier first.value)) rest)
        (i + 1 + 2 * rest.length) := by
  have hdrop' : ts.drop i = first :: (chainSuffix rest ++ vetok :: tail) := by
    rw [hdrop, chainToks_cons]
    simp
  have hget : ts.get? i = some first := by
    have h0 := List.get?_drop ts i 0
    rw [hdrop'] at h0
    simpa using h0.symm
  have hsp : first.kind ≠ .Space := by rw [hfirst]; simp
  have hdrop1 : ts.drop (i + 1) = chainSuffix rest ++ vetok :: tail := by
    have h0 := List.drop_drop 1 i ts
    rw [hdrop'] at h0
    rw [Nat.add_comm i 1] at h0 ⊢
    rw [← h0]
    simp
  cases fuel with
  | zero => omega
  | succ f1 =>
      rw [parse_whole_expression, peek_non_space_at ts i first hget hsp]
      dsimp only
      rw [parse_single_ident ts i first .VariableEnd hget hfirst
        (by rw [hfirst]; simp)]
      dsimp only
      exact mul_chain_loop rest ts tail vetok (i + 1) first.position []
        (Node.mk first.position (.Identifier first.value)) f1 hvk hops hdrop1
        (by omega)

/-- Running the full parser on a template consisting of a single variable
block around an identifier chain: the root holds one VariableBlock whose
payload is whatever tree the expression engine produces for the chain. -/
theorem chain_template (first : Token) (rest : List (Token × Token))
    (p0 pv pe fuel : Nat) (tree : Node)
    (hfuel : 2 * rest.length + 8 ≤ fuel)
    (hw : ∀ g, 2 * rest.length + 2 ≤ g →
      parse_whole_expression g
          (vsTok p0 :: chainToks first rest ++ [veTok pv, eofTok pe]) 1 none
          .VariableEnd
        = .ok tree (2 + 2 * rest.length)) :
    runParse fuel (vsTok p0 :: chainToks first rest ++ [veTok pv, eofTok pe]) =
      .ok (Node.mk 0 (.List [Node.mk p0 (.VariableBlock tree)]))
        (2 * rest.length + 3) := by
  have hgetVE : (vsTok p0 :: chainToks first rest ++ [veTok pv, eofTok pe]).get?
      (2 + 2 * rest.length) = some (veTok pv) := by
    show (vsTok p0 :: (chainToks first rest ++ [veTok pv, eofTok pe])).get?
      (2 + 2 * rest.length) = some (veTok pv)
    rw [show 2 + 2 * rest.length = (1 + 2 * rest.length) + 1 by omega]
    rw [List.get?_cons_succ,
      List.get?_append_right (by rw [chainToks_length])]
    rw [chainToks_length]
    simp
  have hgetEOF : (vsTok p0 :: chainToks first rest ++ [veTok pv, eofTok pe]).get?
      (2 + 2 * rest.length + 1) = some (eofTok pe) := by
    show (vsTok p0 :: (chainToks first rest ++ [veTok pv, eofTok pe])).get?
      (2 + 2 * rest.length + 1) = some (eofTok pe)
    rw [show 2 + 2 * rest.length + 1 = (1 + 2 * rest.length + 1) + 1 by omega]
    rw [List.get?_cons_succ,
      List.get?_append_right (by rw [chainToks_length]; omega)]
    rw [chainToks_length]
    rw [show 1 + 2 * rest.length + 1 - (1 + 2 * rest.length) = 1 by omega]
    simp
  have hvesp : (veTok pv).kind ≠ .Space := by simp [veTok]
  cases fuel with
  | zero => omega
  | succ g1 =>
      cases g1 with
      | zero => omega
      | succ g2 =>
          have hget0 : (vsTok p0 :: chainToks first rest
              ++ [veTok pv, eofTok pe]).get? 0 = some (vsTok p0) := rfl
          rw [runParse, parse, parse_next, peek, hget0]
          dsimp only
          rw [parse_variable_block, expect,
            peek_non_space_at _ 0 (vsTok p0) hget0 (by simp [vsTok])]
          dsimp only
          rw [if_neg (by simp [vsTok])]
          rw [next_non_space_at _ 0 (vsTok p0) hget0 (by simp [vsTok])]
          dsimp only
          rw [hw g2 (by omega)]
          dsimp only
          rw [expect, peek_non_space_at _ (2 + 2 * rest.length) (veTok pv)
            hgetVE hvesp]
          dsimp only
          rw [if_neg (by simp [veTok])]
          rw [next_non_space_at _ (2 + 2 * rest.length) (veTok pv) hgetVE hvesp]
          dsimp only
          cases g2 with
          | zero => omega
          | succ g3 =>
              rw [show (vsTok p0).kind = .VariableStart from rfl]
              dsimp only
              rw [parse, parse_next, peek, hgetEOF]
              dsimp only
              rw [show (eofTok pe).kind = .EOF from rfl]
              dsimp only
              congr 1
              omega

/-- C2 amended: for identifier chains inside a variable block, a chain
joined by additive operators parses to the right-associated tree (each
operator's right side is the parse of everything to its right), while a
chain joined by multiplicative operators parses to the left-associated
tree; this holds for any number of operands. -/
theorem claim_C2_amended (first : Token) (rest : List (Token × Token))
    (p0 pv pe fuel : Nat)
    (hfirst : first.kind = .Identifier)
    (hfuel : 2 * rest.length + 8 ≤ fuel) :
    ((∀ p ∈ rest, (p.1.kind = .Add ∨ p.1.kind = .Substract)
        ∧ p.2.kind = .Identifier) →
      runParse fuel (vsTok p0 :: chainToks first rest ++ [veTok pv, eofTok pe]) =
        .ok (Node.mk 0 (.List [Node.mk p0
          (.VariableBlock (rightTree first rest))])) (2 * rest.length + 3))
      ∧ ((∀ p ∈ rest, (p.1.kind = .Multiply ∨ p.1.kind = .Divide)
          ∧ p.2.kind = .Identifier) →
        runParse fuel (vsTok p0 :: chainToks first rest ++ [veTok pv, eofTok pe]) =
          .ok (Node.mk 0 (.List [Node.mk p0 (.VariableBlock
            (leftTree (Node.mk first.position (.Identifier first.value)) rest))]))
            (2 * rest.length + 3)) := by
  constructor
  · intro hops
    exact chain_template first rest p0 pv pe fuel _ hfuel
      (fun g hg => add_chain_whole first rest _ [eofTok pe] (veTok pv) 1 g
        hfirst rfl hops rfl (by omega))
  · intro hops
    exact chain_template first rest p0 pv pe fuel _ hfuel
      (fun g hg => mul_chain_whole first rest _ [eofTok pe] (veTok pv) 1 g
        hfirst rfl hops rfl (by omega))

/-- C2 amended, witness: the three-identifier additive chain a + b + c
parses right-associated and the multiplicative chain a * b / c parses
left-associated. -/
theorem claim_C2_amended_witness :
    runParse 12 (vsTok 0 :: chainToks (identTok "a" 2)
        [(addTok 3, identTok "b" 4), (addTok 5, identTok "c" 6)]
        ++ [veTok 7, eofTok 9]) =
      .ok (Node.mk 0 (.List [Node.mk 0 (.VariableBlock
        (Node.mk 2 (.Math (Node.mk 2 (.Identifier "a"))
          (Node.mk 4 (.Math (Node.mk 4 (.Identifier "b"))
            (Node.mk 6 (.Identifier "c")) "+")) "+")))])) 7
    ∧ runParse 12 (vsTok 0 :: chainToks (identTok "a" 2)
        [(mulTok 3, identTok "b" 4), (divTok 5, identTok "c" 6)]
        ++ [veTok 7, eofTok 9]) =
      .ok (Node.mk 0 (.List [Node.mk 0 (.VariableBlock
        (Node.mk 2 (.Math
          (Node.mk 2 (.Math (Node.mk 2 (.Identifier "a"))
            (Node.mk 4 (.Identifier "b")) "*"))
          (Node.mk 6 (.Identifier "c")) "/")))])) 7 :=
  ⟨(claim_C2_amended (identTok "a" 2)
      [(addTok 3, identTok "b" 4), (addTok 5, identTok "c" 6)]
      0 7 9 12 rfl (by decide)).1 (by decide),
   (claim_C2_amended (identTok "a" 2)
      [(mulTok 3, identTok "b" 4), (divTok 5, identTok "c" 6)]
      0 7 9 12 rfl (by decide)).2 (by decide)⟩
